import Mathlib

/-!
Verification of the Position and Deterministic Feed Composition subsystem.

This development gives a shallow embedding of the feed composer
(backend/routes/feed.py, function randomize_videos_with_locks together
with its seed derivation) and of the position ledger operations
(backend/routes/videos.py, functions create_video and reorder_videos),
and proves the behavioural properties stated in the specification.

Modelling conventions:
- a (Video, SocialAccount) row is modelled by the Card structure holding
  exactly the fields the algorithms read: id, position, is_locked;
- Python machine-independent integers are Nat or Int, with explicit
  reductions modulo 2 ^ 32 where the underlying C code is 32-bit;
- hashlib.sha256 is embedded as an executable SHA-256 over byte lists;
- random.Random(seed).shuffle is embedded as the exact CPython algorithm:
  a Mersenne Twister (MT19937) generator initialised from the integer
  seed, driving a Fisher-Yates pass with rejection sampling; the proofs
  only use the shape of the pass (every step swaps two entries), so no
  claim depends on the numeric stream;
- logger.warning calls are modelled as an explicitly returned warning
  list, and the process-global random state that the code deliberately
  avoids is modelled as an extra argument the composer never reads.
-/

set_option maxHeartbeats 1000000
set_option maxRecDepth 10000

/-- Card models one (Video, SocialAccount) row as consumed by the feed
composer and the position ledger: the video id (a UUID, modelled as a
number), its integer position within the experiment, and the lock flag. -/
structure Card where
  id : Nat
  position : Nat
  is_locked : Bool
  deriving DecidableEq, Repr

/-- Warnings the composer can emit through logger.warning: a locked video
whose position exceeds the total video count, and exhaustion of the
unlocked videos before every empty slot was filled. -/
inductive FeedWarning where
  | oobLock (cardId : Nat)
  | notEnoughUnlocked
  deriving DecidableEq, Repr

/-- UTF-8 encoding of one character, modelling Python str.encode. -/
def utf8EncodeChar (c : Char) : List Nat :=
  let n := c.toNat
  if n < 128 then [n]
  else if n < 2048 then [192 + n / 64, 128 + n % 64]
  else if n < 65536 then [224 + n / 4096, 128 + (n / 64) % 64, 128 + n % 64]
  else [240 + n / 262144, 128 + (n / 4096) % 64, 128 + (n / 64) % 64, 128 + n % 64]

/-- UTF-8 byte sequence of a string, modelling Python str.encode. -/
def utf8Bytes (s : String) : List Nat :=
  (s.data.map utf8EncodeChar).flatten

/-- Modulus for 32-bit words. -/
def w32 : Nat := 4294967296

/-- Right rotation of a 32-bit word. -/
def rotr32 (x n : Nat) : Nat := x / 2 ^ n + x % 2 ^ n * 2 ^ (32 - n)

/-- Right shift of a 32-bit word. -/
def shr32 (x n : Nat) : Nat := x / 2 ^ n

/-- Bitwise complement within 32 bits. -/
def not32 (x : Nat) : Nat := 4294967295 - x % w32

/-- Round constants of SHA-256 (FIPS 180-4). -/
def sha256K : List Nat :=
  [1116352408, 1899447441, 3049323471, 3921009573, 961987163, 1508970993,
   2453635748, 2870763221, 3624381080, 310598401, 607225278, 1426881987,
   1925078388, 2162078206, 2614888103, 3248222580, 3835390401, 4022224774,
   264347078, 604807628, 770255983, 1249150122, 1555081692, 1996064986,
   2554220882, 2821834349, 2952996808, 3210313671, 3336571891, 3584528711,
   113926993, 338241895, 666307205, 773529912, 1294757372, 1396182291,
   1695183700, 1986661051, 2177026350, 2456956037, 2730485921, 2820302411,
   3259730800, 3345764771, 3516065817, 3600352804, 4094571909, 275423344,
   430227734, 506948616, 659060556, 883997877, 958139571, 1322822218,
   1537002063, 1747873779, 1955562222, 2024104815, 2227730452, 2361852424,
   2428436474, 2756734187, 3204031479, 3329325298]

/-- Initial hash value of SHA-256 (FIPS 180-4). -/
def sha256H0 : List Nat :=
  [1779033703, 3144134277, 1013904242, 2773480762, 1359893119, 2600822924,
   528734635, 1541459225]

/-- Small sigma-0 word function of SHA-256. -/
def smallSigma0 (x : Nat) : Nat := rotr32 x 7 ^^^ rotr32 x 18 ^^^ shr32 x 3

/-- Small sigma-1 word function of SHA-256. -/
def smallSigma1 (x : Nat) : Nat := rotr32 x 17 ^^^ rotr32 x 19 ^^^ shr32 x 10

/-- Big sigma-0 word function of SHA-256. -/
def bigSigma0 (x : Nat) : Nat := rotr32 x 2 ^^^ rotr32 x 13 ^^^ rotr32 x 22

/-- Big sigma-1 word function of SHA-256. -/
def bigSigma1 (x : Nat) : Nat := rotr32 x 6 ^^^ rotr32 x 11 ^^^ rotr32 x 25

/-- Choice word function of SHA-256. -/
def chWord (e f g : Nat) : Nat := (e &&& f) ^^^ (not32 e &&& g)

/-- Majority word function of SHA-256. -/
def majWord (a b c : Nat) : Nat := (a &&& b) ^^^ (a &&& c) ^^^ (b &&& c)

/-- Big-endian byte decomposition of a number into a fixed number of bytes. -/
def natToBytesBE : Nat → Nat → List Nat
  | 0, _ => []
  | k + 1, n => natToBytesBE k (n / 256) ++ [n % 256]

/-- Padding step of SHA-256: append a 1 bit, zeros, and the 64-bit
big-endian message bit length, up to a multiple of 64 bytes. -/
def sha256Pad (msg : List Nat) : List Nat :=
  let padZeros := (64 - (msg.length + 9) % 64) % 64
  msg ++ [128] ++ List.replicate padZeros 0 ++ natToBytesBE 8 (8 * msg.length)

/-- Grouping of a byte list into big-endian 32-bit words. -/
def bytesToWordsBE : List Nat → List Nat
  | b0 :: b1 :: b2 :: b3 :: rest =>
      (((b0 * 256 + b1) * 256 + b2) * 256 + b3) :: bytesToWordsBE rest
  | _ => []

/-- Fuel-driven helper for splitting a byte list into 64-byte blocks; the
fuel only needs to dominate the number of blocks, and the list length does. -/
def toBlocksAux : Nat → List Nat → List (List Nat)
  | 0, _ => []
  | _ + 1, [] => []
  | k + 1, a :: t => (a :: t).take 64 :: toBlocksAux k ((a :: t).drop 64)

/-- Splitting of a byte list into 64-byte blocks. -/
def toBlocks (l : List Nat) : List (List Nat) :=
  toBlocksAux l.length l

/-- Message-schedule extension of SHA-256 from 16 to 64 words. -/
def extendSchedule (w : List Nat) : List Nat :=
  (List.range 48).foldl
    (fun w _ =>
      let t := w.length
      w ++ [(smallSigma1 (w.getD (t - 2) 0) + w.getD (t - 7) 0 +
             smallSigma0 (w.getD (t - 15) 0) + w.getD (t - 16) 0) % w32])
    w

/-- One round of the SHA-256 compression function on the 8-word state. -/
def sha256Round (st : List Nat) (kw : Nat × Nat) : List Nat :=
  match st with
  | [a, b, c, d, e, f, g, h] =>
    let t1 := (h + bigSigma1 e + chWord e f g + kw.1 + kw.2) % w32
    let t2 := (bigSigma0 a + majWord a b c) % w32
    [(t1 + t2) % w32, a, b, c, (d + t1) % w32, e, f, g]
  | other => other

/-- Compression of one 64-byte block into the running hash value. -/
def sha256Block (hv : List Nat) (block : List Nat) : List Nat :=
  let w := extendSchedule (bytesToWordsBE block)
  let st := (sha256K.zip w).foldl sha256Round hv
  (hv.zip st).map (fun p => (p.1 + p.2) % w32)

/-- Eight 32-bit hash words of the SHA-256 digest of a byte list. -/
def sha256Words (msg : List Nat) : List Nat :=
  (toBlocks (sha256Pad msg)).foldl sha256Block sha256H0

/-- Lowercase hexadecimal digit characters in value order: the ten decimal
digits followed by the letters from a to f, built from character codes. -/
def hexDigitChars : List Char :=
  (List.range 16).map (fun i => Char.ofNat (if i < 10 then 48 + i else 87 + i))

/-- Fixed-width big-endian lowercase hexadecimal rendering of a number. -/
def natToHexChars : Nat → Nat → List Char
  | 0, _ => []
  | k + 1, n => natToHexChars k (n / 16) ++ [hexDigitChars.getD (n % 16) '0']

/-- Lowercase hex digest characters of the SHA-256 of a byte list,
modelling hashlib.sha256(bytes).hexdigest(). -/
def sha256HexChars (msg : List Nat) : List Char :=
  ((sha256Words msg).map (fun w => natToHexChars 8 w)).flatten

/-- Numeric value of one hexadecimal character; characters outside the
hexadecimal alphabet (which Python int(s, 16) would reject) map to 0. -/
def hexCharVal (c : Char) : Nat := hexDigitChars.indexOf c % 16

/-- Base-16 interpretation of a character list, modelling int(s, 16) on
well-formed hexadecimal input. -/
def hexToNat (l : List Char) : Nat := l.foldl (fun acc c => acc * 16 + hexCharVal c) 0

/-- HASH_SEED_LENGTH constant from feed.py: the number of leading hex
characters of the digest kept for the shuffle seed. -/
def HASH_SEED_LENGTH : Nat := 16

/-- Seed string built by feed.py line 77, the f-string joining the decimal
form of the project seed and the participant id with a dash. -/
def seed_string (randomization_seed : Int) (participant_id : String) : String :=
  toString randomization_seed ++ "-" ++ participant_id

/-- Derived shuffle seed from feed.py lines 77-79:
int(hashlib.sha256(seed_string.encode()).hexdigest()[:HASH_SEED_LENGTH], 16). -/
def seedValue (randomization_seed : Int) (participant_id : String) : Nat :=
  hexToNat ((sha256HexChars (utf8Bytes (seed_string randomization_seed participant_id))).take
    HASH_SEED_LENGTH)

/-- Test vector: SHA-256 of the three ASCII bytes of abc (FIPS 180-4 example),
confirming the embedding of the hash pipeline. -/
theorem sha256HexChars_vector :
    sha256HexChars (utf8Bytes ("abc")) =
      ("ba7816bf8f01cfea414140de5dae2223b00361a396177a9cb410ff61f20015ad").data := by
  decide

/-- Test vector for the full seed derivation, matching the value CPython
computes for project seed 12345 and participant id participant1. -/
theorem seedValue_vector :
    seedValue 12345 ("participant1") = 7981802548036432257 := by
  decide

/-- State of the MT19937 generator behind random.Random: the 624-word
vector and the read cursor. -/
structure MTState where
  mt : Array Nat
  mti : Nat
  deriving Repr

/-- Bounds-safe array read defaulting to 0, used for the MT19937 word vector. -/
def aget (a : Array Nat) (i : Nat) : Nat := a.getD i 0

/-- Bounds-safe array write that ignores out-of-range indices. -/
def aset (a : Array Nat) (i : Nat) (v : Nat) : Array Nat := a.setD i v

/-- Initialisation of the MT19937 word vector from one 32-bit seed,
modelling init_genrand of the CPython _random module. -/
def initGenrand (s : Nat) : Array Nat :=
  (List.range 623).foldl
    (fun a i =>
      let prev := aget a i
      aset a (i + 1) ((1812433253 * (prev ^^^ (prev >>> 30)) + (i + 1)) % w32))
    (aset (Array.mkArray 624 0) 0 (s % w32))

/-- Initialisation of the MT19937 word vector from a key array, modelling
init_by_array of the CPython _random module. -/
def initByArray (key : List Nat) : Array Nat :=
  let keyLen := key.length
  let s1 := (List.range (max 624 keyLen)).foldl
    (fun (st : Array Nat × Nat × Nat) _ =>
      let (a, i, j) := st
      let prev := aget a (i - 1)
      let v := ((aget a i ^^^ (((prev ^^^ (prev >>> 30)) * 1664525) % w32)) +
        key.getD j 0 + j) % w32
      let a := aset a i v
      let (a, i) := if 624 ≤ i + 1 then (aset a 0 (aget a 623), 1) else (a, i + 1)
      let j := if keyLen ≤ j + 1 then 0 else j + 1
      (a, i, j))
    (initGenrand 19650218, 1, 0)
  let s2 := (List.range 623).foldl
    (fun (st : Array Nat × Nat) _ =>
      let (a, i) := st
      let prev := aget a (i - 1)
      let v := ((aget a i ^^^ (((prev ^^^ (prev >>> 30)) * 1566083941) % w32)) +
        w32 - i % w32) % w32
      let a := aset a i v
      if 624 ≤ i + 1 then (aset a 0 (aget a 623), 1) else (a, i + 1))
    (s1.1, s1.2.1)
  aset s2.1 0 2147483648

/-- In-place generation pass of MT19937 over the whole word vector; the
index arithmetic reads already-regenerated words exactly as the C loop does. -/
def twistStep (a : Array Nat) (i : Nat) : Array Nat :=
  let y := (aget a i &&& 2147483648) + (aget a ((i + 1) % 624) &&& 2147483647)
  let v := aget a ((i + 397) % 624) ^^^ (y >>> 1) ^^^ (if y % 2 = 1 then 2567483615 else 0)
  aset a i v

/-- Regeneration of all 624 words of the MT19937 state. -/
def twist (a : Array Nat) : Array Nat := (List.range 624).foldl twistStep a

/-- Extraction of one tempered 32-bit output word, modelling genrand_uint32. -/
def genrandUInt32 (g : MTState) : Nat × MTState :=
  let g := if 624 ≤ g.mti then MTState.mk (twist g.mt) 0 else g
  let y := aget g.mt g.mti
  let y := y ^^^ (y >>> 11)
  let y := y ^^^ ((y <<< 7) &&& 2636928640)
  let y := y ^^^ ((y <<< 15) &&& 4022730752)
  let y := y ^^^ (y >>> 18)
  (y, MTState.mk g.mt (g.mti + 1))

/-- Extraction of k random bits, modelling Random.getrandbits: one output
word when k is at most 32, and little-endian accumulation of 32-bit digits
with a truncated final word otherwise. -/
def getrandbits (g : MTState) (k : Nat) : Nat × MTState :=
  if k ≤ 32 then
    let r := genrandUInt32 g
    (r.1 >>> (32 - k), r.2)
  else
    (List.range ((k - 1) / 32 + 1)).foldl
      (fun (st : Nat × MTState) idx =>
        let (acc, g) := st
        let (r, g) := genrandUInt32 g
        let rem := k - 32 * idx
        let r := if rem < 32 then r >>> (32 - rem) else r
        (acc + r * 2 ^ (32 * idx), g))
      (0, g)

/-- Bit length of a number, modelling int.bit_length in Python. -/
def bitLength (n : Nat) : Nat := if n = 0 then 0 else Nat.log2 n + 1

/-- Rejection-sampling loop of Random._randbelow_with_getrandbits with
explicit fuel. CPython retries unboundedly; every retry happens with
probability below one half, and no theorem in this file depends on the
numeric value drawn, so bounded fuel with a 0 fallback is an adequate
total model. -/
def randbelowAux : Nat → MTState → Nat → Nat → Nat × MTState
  | 0, g, _, _ => (0, g)
  | fuel + 1, g, k, n =>
    let r := getrandbits g k
    if r.1 < n then r else randbelowAux fuel r.2 k n

/-- Uniform draw below n, modelling Random._randbelow_with_getrandbits. -/
def randbelow (g : MTState) (n : Nat) : Nat × MTState :=
  randbelowAux 64 g (bitLength n) n

/-- Exchange of the entries at two positions of a list; positions out of
range leave the list unchanged, which never happens in the shuffle. -/
def listSwap {α : Type} (l : List α) (i j : Nat) : List α :=
  match l[i]?, l[j]? with
  | some a, some b => (l.set i b).set j a
  | _, _ => l

/-- Fisher-Yates pass of Random.shuffle: the first argument is the current
index minus one, so the pass visits indices len-1 down to 1 and draws the
exchange partner below index+1, exactly as the CPython loop does. -/
def shuffleAux {α : Type} : Nat → MTState → List α → List α × MTState
  | 0, g, l => (l, g)
  | i + 1, g, l =>
    let jg := randbelow g (i + 2)
    shuffleAux i jg.2 (listSwap l (i + 1) jg.1)

/-- Reordering performed by rng.shuffle(unlocked_videos) in feed.py: a
Mersenne Twister seeded from the derived seed drives a Fisher-Yates pass. -/
def pyShuffle {α : Type} (g : MTState) (l : List α) : List α :=
  (shuffleAux (l.length - 1) g l).1

/-- Words of the integer seed handed to random.Random, least significant
first, 32 bits each, as random_seed of the CPython _random module builds
them; the fuel argument of the helper dominates the word count. -/
def natWords32Aux : Nat → Nat → List Nat
  | 0, _ => []
  | _ + 1, 0 => []
  | fuel + 1, n => n % w32 :: natWords32Aux fuel (n / w32)

/-- Key array for init_by_array from an integer seed. -/
def mtKey (seed : Nat) : List Nat :=
  if seed = 0 then [0] else natWords32Aux seed seed

/-- Construction of random.Random(seed) for a non-negative integer seed. -/
def mtInit (seed : Nat) : MTState := MTState.mk (initByArray (mtKey seed)) 624

/-- Partition of the input rows into the locked-video dictionary and the
unlocked-video list, modelling the loop at feed.py lines 64-68. The Python
dict is insertion ordered and an assignment to an existing position key
overwrites the stored tuple while keeping the key at its original place,
which is exactly the upsert below. -/
def dictUpsert (d : List (Nat × Card)) (k : Nat) (v : Card) : List (Nat × Card) :=
  if d.any (fun pc => pc.1 = k) then
    d.map (fun pc => if pc.1 = k then (k, v) else pc)
  else d ++ [(k, v)]

/-- One step of the partition loop at feed.py lines 64-68. -/
def splitStep (st : List (Nat × Card) × List Card) (c : Card) :
    List (Nat × Card) × List Card :=
  if c.is_locked then (dictUpsert st.1 c.position c, st.2)
  else (st.1, st.2 ++ [c])

/-- Locked dictionary and unlocked list accumulated over the input order. -/
def splitVideos (videos : List Card) : List (Nat × Card) × List Card :=
  videos.foldl splitStep ([], [])

/-- Placement of the locked videos into the result slots, modelling the
loop at feed.py lines 90-101: an in-range position overwrites its slot, an
out-of-range position is skipped with a warning. -/
def placeStep (n : Nat) (st : List (Option Card) × List FeedWarning) (pc : Nat × Card) :
    List (Option Card) × List FeedWarning :=
  if pc.1 < n then (st.1.set pc.1 (some pc.2), st.2)
  else (st.1, st.2 ++ [FeedWarning.oobLock pc.2.id])

def placeLocked (d : List (Nat × Card)) (n : Nat) : List (Option Card) × List FeedWarning :=
  d.foldl (placeStep n) (List.replicate n none, [])

/-- Filling of the remaining empty slots from the shuffled unlocked list,
modelling the loop at feed.py lines 104-118: slots are walked in ascending
order, each empty slot consumes the next unlocked video, and exhaustion
stops the walk (the returned flag records the warning). -/
def fillSlots : List (Option Card) → List Card → List (Option Card) × Bool
  | [], _ => ([], false)
  | none :: rest, [] => (none :: rest, true)
  | none :: rest, u :: us =>
      let r := fillSlots rest us
      (some u :: r.1, r.2)
  | some c :: rest, us =>
      let r := fillSlots rest us
      (some c :: r.1, r.2)

set_option linter.unusedVariables false in
/-- Feed composer, modelling _randomize_videos_with_locks of feed.py in
full. The first argument stands for the process-wide random module state
that a non-pure implementation could have consulted; the function never
reads it, because the code constructs a local random.Random(seed_value).
The second component of the result collects the emitted warnings. -/
def randomize_videos_with_locks (globalRandomState : Nat) (videos : List Card)
    (participant_id : String) (randomization_seed : Int) :
    List Card × List FeedWarning :=
  if participant_id = "" ∨ participant_id = "preview" then (videos, [])
  else if videos = [] then ([], [])
  else
    let part := splitVideos videos
    if part.2 = [] then (videos, [])
    else
      let shuffled := pyShuffle (mtInit (seedValue randomization_seed participant_id)) part.2
      let placed := placeLocked part.1 videos.length
      let filled := fillSlots placed.1 shuffled
      (filled.1.filterMap id,
        placed.2 ++ if filled.2 then [FeedWarning.notEnoughUnlocked] else [])

/-- Participant id actually passed to the composer by get_public_feed at
feed.py line 161: an absent query value becomes the preview sentinel. -/
def effective_participant_id (participantId : Option String) : String :=
  participantId.getD ("preview")

/-- Next appended position, modelling create_video of videos.py lines
99-108: the maximum position over the experiment (None for an empty
experiment, modelled by the optional maximum) coalesced to -1, plus one. -/
def next_append_position (cards : List Card) : Int :=
  (match (cards.map (fun c => (c.position : Int))).max? with
   | some m => m
   | none => -1) + 1

/-- Append of one new card, modelling create_video: the stored position is
the computed next position (always non-negative over well-formed states). -/
def create_video (cards : List Card) (newId : Nat) (locked : Bool) : List Card :=
  cards ++ [Card.mk newId (next_append_position cards).toNat locked]

/-- Iterated append of cards with ids 0, 1, ... into an initially empty
experiment, used to state the append-sequencing property. -/
def appendSeq : Nat → List Card
  | 0 => []
  | n + 1 => create_video (appendSeq n) n false

/-- Validation errors of the reorder endpoint, modelling the three
HTTPException detail shapes of reorder_videos in videos.py. -/
inductive ReorderError where
  | countMismatch (expectedCount providedCount : Nat)
  | duplicateIds
  | missingIds (ids : List Nat)
  deriving DecidableEq, Repr

/-- Reorder operation, modelling reorder_videos of videos.py lines
192-257 over the card list of one experiment: the early no-op return for
an empty experiment, the three validations in code order, and the
position assignment by index in the supplied order. -/
def reorder_videos (videos : List Card) (ordered_video_ids : List Nat) :
    Except ReorderError (List Card) :=
  if videos.length = 0 then Except.ok videos
  else if ordered_video_ids.length ≠ videos.length then
    Except.error (ReorderError.countMismatch videos.length ordered_video_ids.length)
  else if ordered_video_ids.length ≠ ordered_video_ids.dedup.length then
    Except.error ReorderError.duplicateIds
  else if ordered_video_ids.filter (fun i => ¬ videos.any (fun v => v.id = i)) ≠ [] then
    Except.error (ReorderError.missingIds
      (ordered_video_ids.filter (fun i => ¬ videos.any (fun v => v.id = i))))
  else
      Except.ok (videos.map (fun v =>
        if v.id ∈ ordered_video_ids then
          Card.mk v.id (ordered_video_ids.indexOf v.id) v.is_locked
        else v))

/-- State transition of a reorder request: a rejected request leaves the
stored cards untouched, an accepted one commits the new positions. -/
def reorder_apply (videos : List Card) (ordered_video_ids : List Nat) :
    List Card × Option ReorderError :=
  match reorder_videos videos ordered_video_ids with
  | Except.ok vs => (vs, none)
  | Except.error e => (videos, some e)


/-- Number of empty slots in a partially filled result array. -/
def countNone : List (Option Card) → Nat
  | [] => 0
  | none :: t => countNone t + 1
  | some _ :: t => countNone t

theorem cons_set_perm {α : Type} :
    ∀ (l : List α) (k : Nat) (a b : α), l[k]? = some b → (b :: l.set k a).Perm (a :: l) := by
  intro l
  induction l with
  | nil => intro k a b h; simp at h
  | cons hd tl ih =>
    intro k a b h
    cases k with
    | zero =>
      simp at h
      subst h
      exact List.Perm.swap _ _ _
    | succ k =>
      simp only [List.getElem?_cons_succ] at h
      have h1 : (hd :: tl).set (k + 1) a = hd :: tl.set k a := by simp
      rw [h1]
      exact ((List.Perm.swap hd b _).trans
        (List.Perm.cons hd (ih k a b h))).trans (List.Perm.swap a hd tl)

theorem set_set_swap_perm {α : Type} :
    ∀ (l : List α) (i j : Nat) (a b : α),
      l[i]? = some a → l[j]? = some b → ((l.set i b).set j a).Perm l := by
  intro l
  induction l with
  | nil => intro i j a b h; simp at h
  | cons hd tl ih =>
    intro i j a b ha hb
    cases i with
    | zero =>
      simp at ha
      subst ha
      cases j with
      | zero =>
        simp at hb
        subst hb
        simp
      | succ m =>
        simp only [List.getElem?_cons_succ] at hb
        simpa using cons_set_perm tl m hd b hb
    | succ k =>
      simp only [List.getElem?_cons_succ] at ha
      cases j with
      | zero =>
        simp at hb
        subst hb
        simpa using cons_set_perm tl k hd a ha
      | succ m =>
        simp only [List.getElem?_cons_succ] at hb
        simpa using List.Perm.cons hd (ih k m a b ha hb)

theorem listSwap_perm {α : Type} (l : List α) (i j : Nat) : (listSwap l i j).Perm l := by
  unfold listSwap
  split
  · next a b ha hb => exact set_set_swap_perm l i j a b ha hb
  · exact List.Perm.refl l

theorem shuffleAux_perm {α : Type} :
    ∀ (n : Nat) (g : MTState) (l : List α), ((shuffleAux n g l).1).Perm l := by
  intro n
  induction n with
  | zero => intro g l; simp [shuffleAux]
  | succ n ih =>
    intro g l
    simp only [shuffleAux]
    exact (ih _ _).trans (listSwap_perm _ _ _)

theorem pyShuffle_perm {α : Type} (g : MTState) (l : List α) : (pyShuffle g l).Perm l :=
  shuffleAux_perm _ _ _

theorem pyShuffle_length {α : Type} (g : MTState) (l : List α) :
    (pyShuffle g l).length = l.length :=
  (pyShuffle_perm g l).length_eq

theorem fillSlots_length : ∀ (l : List (Option Card)) (us : List Card),
    ((fillSlots l us).1).length = l.length := by
  intro l
  induction l with
  | nil => intro us; simp [fillSlots]
  | cons a t ih =>
    intro us
    cases a with
    | none =>
      cases us with
      | nil => simp [fillSlots]
      | cons u us => simp [fillSlots, ih]
    | some c => simp [fillSlots, ih]

theorem fillSlots_warn_iff : ∀ (l : List (Option Card)) (us : List Card),
    (fillSlots l us).2 = true ↔ us.length < countNone l := by
  intro l
  induction l with
  | nil => intro us; simp [fillSlots, countNone]
  | cons a t ih =>
    intro us
    cases a with
    | none =>
      cases us with
      | nil => simp [fillSlots, countNone]
      | cons u us => simpa [fillSlots, countNone, Nat.succ_lt_succ_iff] using ih us
    | some c => simp [fillSlots, countNone, ih]

theorem fillSlots_countNone : ∀ (l : List (Option Card)) (us : List Card),
    countNone (fillSlots l us).1 = countNone l - us.length := by
  intro l
  induction l with
  | nil => intro us; simp [fillSlots, countNone]
  | cons a t ih =>
    intro us
    cases a with
    | none =>
      cases us with
      | nil => simp [fillSlots]
      | cons u us =>
        have := ih us
        simp only [fillSlots, countNone, List.length_cons]
        omega
    | some c => simp [fillSlots, countNone, ih]

theorem fillSlots_getElem : ∀ (l : List (Option Card)) (us : List Card) (i : Nat) (c : Card),
    l[i]? = some (some c) → ((fillSlots l us).1)[i]? = some (some c) := by
  intro l
  induction l with
  | nil => intro us i c h; simp at h
  | cons a t ih =>
    intro us i c h
    cases a with
    | none =>
      cases us with
      | nil => simpa [fillSlots] using h
      | cons u us =>
        cases i with
        | zero => simp at h
        | succ i => simpa [fillSlots] using ih us i c (by simpa using h)
    | some b =>
      cases i with
      | zero => simpa [fillSlots] using h
      | succ i => simpa [fillSlots] using ih us i c (by simpa using h)

theorem fillSlots_filterMap_perm : ∀ (l : List (Option Card)) (us : List Card),
    ((fillSlots l us).1.filterMap id).Perm (l.filterMap id ++ us.take (countNone l)) := by
  intro l
  induction l with
  | nil => intro us; simp [fillSlots, countNone]
  | cons a t ih =>
    intro us
    cases a with
    | none =>
      cases us with
      | nil => simp [fillSlots]
      | cons u us =>
        simp only [fillSlots, countNone, List.filterMap_cons, id]
        refine List.Perm.trans (List.Perm.cons u (ih us)) ?_
        simpa using (List.perm_middle).symm
    | some c =>
      simp only [fillSlots, countNone, List.filterMap_cons, id]
      exact List.Perm.cons c (ih us)

theorem filterMap_length_sub : ∀ (l : List (Option Card)),
    (l.filterMap id).length = l.length - countNone l := by
  intro l
  induction l with
  | nil => simp
  | cons a t ih =>
    cases a with
    | none =>
      have hc : countNone t ≤ t.length := by
        clear ih
        induction t with
        | nil => simp [countNone]
        | cons b r ihr =>
          cases b with
          | none => simp [countNone]; omega
          | some c => simp [countNone]; omega
      simp only [List.filterMap_cons, id, countNone, List.length_cons]
      omega
    | some c =>
      have hc : countNone t ≤ t.length := by
        clear ih
        induction t with
        | nil => simp [countNone]
        | cons b r ihr =>
          cases b with
          | none => simp [countNone]; omega
          | some c => simp [countNone]; omega
      simp only [List.filterMap_cons, id, countNone, List.length_cons]
      omega

theorem filterMap_getElem_of_full : ∀ (l : List (Option Card)) (i : Nat) (c : Card),
    countNone l = 0 → l[i]? = some (some c) → (l.filterMap id)[i]? = some c := by
  intro l
  induction l with
  | nil => intro i c _ h; simp at h
  | cons a t ih =>
    intro i c hn h
    cases a with
    | none => simp [countNone] at hn
    | some b =>
      cases i with
      | zero =>
        simp at h
        simp [List.filterMap_cons, h]
      | succ i =>
        simp only [countNone] at hn
        simpa [List.filterMap_cons] using ih i c hn (by simpa using h)

theorem countNone_set_some : ∀ (l : List (Option Card)) (p : Nat) (c : Card),
    l[p]? = some none → countNone (l.set p (some c)) + 1 = countNone l := by
  intro l
  induction l with
  | nil => intro p c h; simp at h
  | cons a t ih =>
    intro p c h
    cases p with
    | zero =>
      simp at h
      subst h
      simp [countNone]
    | succ p =>
      simp only [List.getElem?_cons_succ] at h
      cases a with
      | none =>
        have := ih p c h
        simp only [List.set_cons_succ, countNone]
        omega
      | some b =>
        have := ih p c h
        simp only [List.set_cons_succ, countNone]
        omega

theorem filterMap_set_perm : ∀ (l : List (Option Card)) (p : Nat) (c : Card),
    l[p]? = some none → ((l.set p (some c)).filterMap id).Perm (c :: l.filterMap id) := by
  intro l
  induction l with
  | nil => intro p c h; simp at h
  | cons a t ih =>
    intro p c h
    cases p with
    | zero =>
      simp at h
      subst h
      simp [List.filterMap_cons]
    | succ p =>
      simp only [List.getElem?_cons_succ] at h
      cases a with
      | none =>
        simpa [List.filterMap_cons] using ih p c h
      | some b =>
        simp only [List.set_cons_succ, List.filterMap_cons, id]
        exact (List.Perm.cons b (ih p c h)).trans (List.Perm.swap c b _)

theorem countNone_replicate : ∀ n : Nat, countNone (List.replicate n none) = n := by
  intro n
  induction n with
  | zero => simp [countNone]
  | succ n ih => simp [List.replicate_succ, countNone, ih]

theorem place_foldl_length : ∀ (d : List (Nat × Card)) (n : Nat) (init : List (Option Card))
    (ws : List FeedWarning), ((d.foldl (placeStep n) (init, ws)).1).length = init.length := by
  intro d
  induction d with
  | nil => intro n init ws; simp
  | cons pc rest ih =>
    intro n init ws
    simp only [List.foldl_cons, placeStep]
    by_cases h : pc.1 < n
    · rw [if_pos h, ih]
      simp
    · rw [if_neg h]
      exact ih n init (ws ++ [FeedWarning.oobLock pc.2.id])

theorem place_foldl_getElem_ne : ∀ (d : List (Nat × Card)) (n : Nat) (init : List (Option Card))
    (ws : List FeedWarning) (i : Nat), (∀ pc ∈ d, pc.1 ≠ i) →
    ((d.foldl (placeStep n) (init, ws)).1)[i]? = init[i]? := by
  intro d
  induction d with
  | nil => intro n init ws i _; simp
  | cons pc rest ih =>
    intro n init ws i hne
    have hrest : ∀ qc ∈ rest, qc.1 ≠ i := fun qc hq => hne qc (List.mem_cons_of_mem pc hq)
    have hhd : pc.1 ≠ i := hne pc (List.mem_cons_self pc rest)
    simp only [List.foldl_cons, placeStep]
    by_cases h : pc.1 < n
    · rw [if_pos h, ih n _ ws i hrest]
      exact List.getElem?_set_ne hhd
    · rw [if_neg h]
      exact ih n init (ws ++ [FeedWarning.oobLock pc.2.id]) i hrest

theorem place_foldl_hit : ∀ (d : List (Nat × Card)) (n : Nat) (init : List (Option Card))
    (ws : List FeedWarning) (p : Nat) (c : Card), (d.map Prod.fst).Nodup → (p, c) ∈ d →
    p < n → init.length = n →
    ((d.foldl (placeStep n) (init, ws)).1)[p]? = some (some c) := by
  intro d
  induction d with
  | nil => intro n init ws p c _ hm; simp at hm
  | cons pc rest ih =>
    intro n init ws p c hnd hm hp hlen
    simp only [List.map_cons, List.nodup_cons] at hnd
    rcases List.mem_cons.mp hm with heq | hmem
    · subst heq
      simp only [List.foldl_cons, placeStep, if_pos hp]
      have hrest : ∀ qc ∈ rest, qc.1 ≠ p := by
        intro qc hq
        intro hcontra
        have hmm : qc.1 ∈ rest.map Prod.fst := List.mem_map_of_mem Prod.fst hq
        rw [hcontra] at hmm
        exact hnd.1 hmm
      rw [place_foldl_getElem_ne rest n _ ws p hrest]
      rw [List.getElem?_set_self (by omega)]
    · simp only [List.foldl_cons, placeStep]
      by_cases h : pc.1 < n
      · rw [if_pos h]
        exact ih n _ ws p c hnd.2 hmem hp (by simp [hlen])
      · rw [if_neg h]
        exact ih n init (ws ++ [FeedWarning.oobLock pc.2.id]) p c hnd.2 hmem hp hlen

/-- Number of dictionary entries whose position key is in range. -/
def countInRange (n : Nat) : List (Nat × Card) → Nat
  | [] => 0
  | pc :: rest => (if pc.1 < n then 1 else 0) + countInRange n rest

/-- Values of the dictionary entries whose position key is in range, in
dictionary order. -/
def inRangeValues (n : Nat) : List (Nat × Card) → List Card
  | [] => []
  | pc :: rest =>
      if pc.1 < n then pc.2 :: inRangeValues n rest else inRangeValues n rest

theorem countInRange_le_length (n : Nat) : ∀ d : List (Nat × Card), countInRange n d ≤ d.length := by
  intro d
  induction d with
  | nil => simp [countInRange]
  | cons pc rest ih =>
    by_cases h : pc.1 < n
    · simp [countInRange, if_pos h]; omega
    · simp [countInRange, if_neg h]; omega

theorem countInRange_lt_length_of_oob (n : Nat) :
    ∀ d : List (Nat × Card), ∀ pc ∈ d, ¬ pc.1 < n → countInRange n d < d.length := by
  intro d
  induction d with
  | nil => intro pc hm; simp at hm
  | cons qc rest ih =>
    intro pc hm hge
    rcases List.mem_cons.mp hm with heq | hmem
    · subst heq
      have := countInRange_le_length n rest
      simp [countInRange, if_neg hge]
      omega
    · have := ih pc hmem hge
      by_cases h : qc.1 < n
      · simp [countInRange, if_pos h]; omega
      · simp [countInRange, if_neg h]; omega

theorem countInRange_eq_length_of_all (n : Nat) :
    ∀ d : List (Nat × Card), (∀ pc ∈ d, pc.1 < n) → countInRange n d = d.length := by
  intro d
  induction d with
  | nil => intro _; simp [countInRange]
  | cons qc rest ih =>
    intro hall
    have hq := hall qc (List.mem_cons_self qc rest)
    have hr := ih (fun pc hm => hall pc (List.mem_cons_of_mem qc hm))
    simp [countInRange, if_pos hq, hr]
    omega

theorem inRangeValues_eq_of_all (n : Nat) :
    ∀ d : List (Nat × Card), (∀ pc ∈ d, pc.1 < n) → inRangeValues n d = d.map Prod.snd := by
  intro d
  induction d with
  | nil => intro _; simp [inRangeValues]
  | cons qc rest ih =>
    intro hall
    have hq := hall qc (List.mem_cons_self qc rest)
    have hr := ih (fun pc hm => hall pc (List.mem_cons_of_mem qc hm))
    simp [inRangeValues, if_pos hq, hr]

theorem mem_inRangeValues (n : Nat) :
    ∀ (d : List (Nat × Card)) (c : Card), c ∈ inRangeValues n d →
      ∃ pc ∈ d, pc.1 < n ∧ pc.2 = c := by
  intro d
  induction d with
  | nil => intro c hm; simp [inRangeValues] at hm
  | cons qc rest ih =>
    intro c hm
    by_cases h : qc.1 < n
    · rw [inRangeValues, if_pos h] at hm
      rcases List.mem_cons.mp hm with heq | hmem
      · exact ⟨qc, List.mem_cons_self qc rest, h, heq.symm⟩
      · obtain ⟨pc, hpc, hlt, hv⟩ := ih c hmem
        exact ⟨pc, List.mem_cons_of_mem qc hpc, hlt, hv⟩
    · rw [inRangeValues, if_neg h] at hm
      obtain ⟨pc, hpc, hlt, hv⟩ := ih c hm
      exact ⟨pc, List.mem_cons_of_mem qc hpc, hlt, hv⟩

theorem place_foldl_countNone : ∀ (d : List (Nat × Card)) (n : Nat) (init : List (Option Card))
    (ws : List FeedWarning), (d.map Prod.fst).Nodup →
    (∀ pc ∈ d, pc.1 < n → init[pc.1]? = some none) →
    countNone ((d.foldl (placeStep n) (init, ws)).1) + countInRange n d = countNone init := by
  intro d
  induction d with
  | nil => intro n init ws _ _; simp [countInRange]
  | cons pc rest ih =>
    intro n init ws hnd hslot
    simp only [List.map_cons, List.nodup_cons] at hnd
    simp only [List.foldl_cons, placeStep, countInRange]
    by_cases h : pc.1 < n
    · rw [if_pos h, if_pos h]
      have h0 : init[pc.1]? = some none := hslot pc (List.mem_cons_self pc rest) h
      have hset := countNone_set_some init pc.1 pc.2 h0
      have hslotr : ∀ qc ∈ rest, qc.1 < n →
          (init.set pc.1 (some pc.2))[qc.1]? = some none := by
        intro qc hq hqn
        have hne : pc.1 ≠ qc.1 := by
          intro hcontra
          exact hnd.1 (hcontra ▸ List.mem_map_of_mem Prod.fst hq)
        rw [List.getElem?_set_ne hne]
        exact hslot qc (List.mem_cons_of_mem pc hq) hqn
      have := ih n (init.set pc.1 (some pc.2)) ws hnd.2 hslotr
      omega
    · rw [if_neg h, if_neg h]
      have hslotr : ∀ qc ∈ rest, qc.1 < n → init[qc.1]? = some none :=
        fun qc hq hqn => hslot qc (List.mem_cons_of_mem pc hq) hqn
      have := ih n init (ws ++ [FeedWarning.oobLock pc.2.id]) hnd.2 hslotr
      omega

theorem place_foldl_filterMap_perm : ∀ (d : List (Nat × Card)) (n : Nat)
    (init : List (Option Card)) (ws : List FeedWarning), (d.map Prod.fst).Nodup →
    (∀ pc ∈ d, pc.1 < n → init[pc.1]? = some none) →
    (((d.foldl (placeStep n) (init, ws)).1).filterMap id).Perm
      (inRangeValues n d ++ init.filterMap id) := by
  intro d
  induction d with
  | nil => intro n init ws _ _; simp [inRangeValues]
  | cons pc rest ih =>
    intro n init ws hnd hslot
    simp only [List.map_cons, List.nodup_cons] at hnd
    simp only [List.foldl_cons, placeStep, inRangeValues]
    by_cases h : pc.1 < n
    · rw [if_pos h, if_pos h]
      have h0 : init[pc.1]? = some none := hslot pc (List.mem_cons_self pc rest) h
      have hslotr : ∀ qc ∈ rest, qc.1 < n →
          (init.set pc.1 (some pc.2))[qc.1]? = some none := by
        intro qc hq hqn
        have hne : pc.1 ≠ qc.1 := by
          intro hcontra
          exact hnd.1 (hcontra ▸ List.mem_map_of_mem Prod.fst hq)
        rw [List.getElem?_set_ne hne]
        exact hslot qc (List.mem_cons_of_mem pc hq) hqn
      have hperm := ih n (init.set pc.1 (some pc.2)) ws hnd.2 hslotr
      refine hperm.trans ?_
      exact (List.Perm.append_left _ (filterMap_set_perm init pc.1 pc.2 h0)).trans
        List.perm_middle
    · rw [if_neg h, if_neg h]
      have hslotr : ∀ qc ∈ rest, qc.1 < n → init[qc.1]? = some none :=
        fun qc hq hqn => hslot qc (List.mem_cons_of_mem pc hq) hqn
      exact ih n init (ws ++ [FeedWarning.oobLock pc.2.id]) hnd.2 hslotr

/-- Locked subset of the input, in input order. -/
def lockedOf (v : List Card) : List Card := v.filter (fun c => c.is_locked)

/-- Unlocked subset of the input, in input order. -/
def unlockedOf (v : List Card) : List Card := v.filter (fun c => !c.is_locked)

theorem length_locked_add_unlocked (v : List Card) :
    (lockedOf v).length + (unlockedOf v).length = v.length := by
  induction v with
  | nil => simp [lockedOf, unlockedOf]
  | cons c rest ih =>
    by_cases h : c.is_locked
    · simp [lockedOf, unlockedOf, List.filter_cons, h] at ih ⊢
      omega
    · simp [lockedOf, unlockedOf, List.filter_cons, h] at ih ⊢
      omega

theorem locked_append_unlocked_perm (v : List Card) :
    (lockedOf v ++ unlockedOf v).Perm v := by
  induction v with
  | nil => simp [lockedOf, unlockedOf]
  | cons c rest ih =>
    by_cases h : c.is_locked
    · simpa [lockedOf, unlockedOf, List.filter_cons, h] using List.Perm.cons c ih
    · simp only [lockedOf, unlockedOf, List.filter_cons, h] at ih ⊢
      simp only [Bool.not_false, if_pos, if_neg h]
      exact List.perm_middle.trans (List.Perm.cons c ih)

theorem dictUpsert_mem_self (d : List (Nat × Card)) (k : Nat) (v : Card) :
    (k, v) ∈ dictUpsert d k v := by
  unfold dictUpsert
  by_cases h : d.any (fun pc => pc.1 = k)
  · rw [if_pos h]
    obtain ⟨pc, hpc, hk⟩ := List.any_eq_true.mp h
    refine List.mem_map.mpr ⟨pc, hpc, ?_⟩
    simp at hk
    simp [hk]
  · rw [if_neg h]
    simp

theorem dictUpsert_mem_or (d : List (Nat × Card)) (k : Nat) (v : Card) :
    ∀ pc ∈ dictUpsert d k v, pc = (k, v) ∨ pc ∈ d := by
  intro pc hpc
  unfold dictUpsert at hpc
  by_cases h : d.any (fun qc => qc.1 = k)
  · rw [if_pos h] at hpc
    obtain ⟨qc, hqc, heq⟩ := List.mem_map.mp hpc
    by_cases hq : qc.1 = k
    · left; rw [if_pos hq] at heq; exact heq.symm
    · right; rw [if_neg hq] at heq; exact heq ▸ hqc
  · rw [if_neg h] at hpc
    rcases List.mem_append.mp hpc with hm | hm
    · right; exact hm
    · left; simpa using hm

theorem dictUpsert_fst (d : List (Nat × Card)) (k : Nat) (v : Card) :
    (dictUpsert d k v).map Prod.fst =
      if k ∈ d.map Prod.fst then d.map Prod.fst else d.map Prod.fst ++ [k] := by
  have hany : (d.any (fun pc => pc.1 = k)) = true ↔ k ∈ d.map Prod.fst := by
    rw [List.any_eq_true]
    constructor
    · rintro ⟨pc, hpc, hk⟩
      simp at hk
      exact hk ▸ List.mem_map_of_mem Prod.fst hpc
    · intro hk
      obtain ⟨pc, hpc, heq⟩ := List.mem_map.mp hk
      exact ⟨pc, hpc, by simp [heq]⟩
  unfold dictUpsert
  by_cases h : d.any (fun pc => pc.1 = k)
  · rw [if_pos h, if_pos (hany.mp h), List.map_map]
    refine List.map_congr_left ?_
    intro pc _
    by_cases hq : pc.1 = k
    · simp [hq]
    · simp [hq]
  · rw [if_neg h, if_neg (fun hm => h (hany.mpr hm))]
    simp

theorem dictUpsert_nodup_fst (d : List (Nat × Card)) (k : Nat) (v : Card)
    (h : (d.map Prod.fst).Nodup) : ((dictUpsert d k v).map Prod.fst).Nodup := by
  rw [dictUpsert_fst]
  by_cases hm : k ∈ d.map Prod.fst
  · rwa [if_pos hm]
  · rw [if_neg hm]
    simp [List.nodup_append, h, hm]

theorem dictUpsert_length (d : List (Nat × Card)) (k : Nat) (v : Card) :
    (dictUpsert d k v).length ≤ d.length + 1 := by
  unfold dictUpsert
  by_cases h : d.any (fun pc => pc.1 = k)
  · rw [if_pos h]; simp
  · rw [if_neg h]; simp

theorem dictUpsert_length_mem (d : List (Nat × Card)) (k : Nat) (v : Card)
    (h : k ∈ d.map Prod.fst) : (dictUpsert d k v).length = d.length := by
  unfold dictUpsert
  have hany : (d.any (fun pc => pc.1 = k)) = true := by
    obtain ⟨pc, hpc, heq⟩ := List.mem_map.mp h
    exact List.any_eq_true.mpr ⟨pc, hpc, by simp [heq]⟩
  rw [if_pos hany]
  simp

theorem dictUpsert_keys_mono (d : List (Nat × Card)) (k k' : Nat) (v : Card)
    (h : k' ∈ d.map Prod.fst) : k' ∈ (dictUpsert d k v).map Prod.fst := by
  rw [dictUpsert_fst]
  by_cases hm : k ∈ d.map Prod.fst
  · rwa [if_pos hm]
  · rw [if_neg hm]
    exact List.mem_append_left _ h

theorem dictUpsert_mem_ne (d : List (Nat × Card)) (k : Nat) (v : Card) (pc : Nat × Card)
    (hpc : pc ∈ d) (hne : pc.1 ≠ k) : pc ∈ dictUpsert d k v := by
  unfold dictUpsert
  by_cases h : d.any (fun qc => qc.1 = k)
  · rw [if_pos h]
    refine List.mem_map.mpr ⟨pc, hpc, ?_⟩
    rw [if_neg hne]
  · rw [if_neg h]
    exact List.mem_append_left _ hpc

theorem dictUpsert_not_mem (d : List (Nat × Card)) (k : Nat) (v : Card)
    (h : k ∉ d.map Prod.fst) : dictUpsert d k v = d ++ [(k, v)] := by
  unfold dictUpsert
  have hany : (d.any (fun pc => pc.1 = k)) = false := by
    rw [List.any_eq_false]
    intro pc hpc
    simp only [decide_eq_true_eq]
    intro heq
    exact h (heq ▸ List.mem_map_of_mem Prod.fst hpc)
  rw [hany]
  simp

theorem lockedOf_cons_pos (c : Card) (v : List Card) (h : c.is_locked = true) :
    lockedOf (c :: v) = c :: lockedOf v := by
  simp [lockedOf, List.filter_cons, h]

theorem lockedOf_cons_neg (c : Card) (v : List Card) (h : ¬ c.is_locked = true) :
    lockedOf (c :: v) = lockedOf v := by
  rw [Bool.not_eq_true] at h
  simp [lockedOf, List.filter_cons, h]

theorem unlockedOf_cons_pos (c : Card) (v : List Card) (h : c.is_locked = true) :
    unlockedOf (c :: v) = unlockedOf v := by
  simp [unlockedOf, List.filter_cons, h]

theorem unlockedOf_cons_neg (c : Card) (v : List Card) (h : ¬ c.is_locked = true) :
    unlockedOf (c :: v) = c :: unlockedOf v := by
  rw [Bool.not_eq_true] at h
  simp [unlockedOf, List.filter_cons, h]

theorem split_foldl_snd : ∀ (v : List Card) (dct : List (Nat × Card)) (ul : List Card),
    (v.foldl splitStep (dct, ul)).2 = ul ++ unlockedOf v := by
  intro v
  induction v with
  | nil => intro dct ul; simp [unlockedOf]
  | cons c rest ih =>
    intro dct ul
    by_cases h : c.is_locked
    · simp only [List.foldl_cons, splitStep, if_pos h, unlockedOf, List.filter_cons, h]
      simpa [unlockedOf] using ih (dictUpsert dct c.position c) ul
    · simp only [List.foldl_cons, splitStep, if_neg h, unlockedOf, List.filter_cons]
      have := ih dct (ul ++ [c])
      simp only [unlockedOf] at this
      simp [this, h]

theorem split_foldl_entry : ∀ (v : List Card) (dct : List (Nat × Card)) (ul : List Card),
    ∀ pc ∈ (v.foldl splitStep (dct, ul)).1,
      pc ∈ dct ∨ (pc.1 = pc.2.position ∧ pc.2 ∈ lockedOf v) := by
  intro v
  induction v with
  | nil => intro dct ul pc hpc; exact Or.inl hpc
  | cons c rest ih =>
    intro dct ul pc hpc
    by_cases h : c.is_locked
    · simp only [List.foldl_cons, splitStep, if_pos h] at hpc
      rcases ih (dictUpsert dct c.position c) ul pc hpc with hm | hlock
      · rcases dictUpsert_mem_or dct c.position c pc hm with heq | hd
        · right
          subst heq
          rw [lockedOf_cons_pos c rest h]
          exact ⟨rfl, List.mem_cons_self c (lockedOf rest)⟩
        · exact Or.inl hd
      · right
        rw [lockedOf_cons_pos c rest h]
        exact ⟨hlock.1, List.mem_cons_of_mem c hlock.2⟩
    · simp only [List.foldl_cons, splitStep, if_neg h] at hpc
      rcases ih dct (ul ++ [c]) pc hpc with hm | hlock
      · exact Or.inl hm
      · right
        rw [lockedOf_cons_neg c rest h]
        exact hlock

theorem split_foldl_nodup : ∀ (v : List Card) (dct : List (Nat × Card)) (ul : List Card),
    (dct.map Prod.fst).Nodup → (((v.foldl splitStep (dct, ul)).1).map Prod.fst).Nodup := by
  intro v
  induction v with
  | nil => intro dct ul h; exact h
  | cons c rest ih =>
    intro dct ul h
    by_cases hc : c.is_locked
    · simp only [List.foldl_cons, splitStep, if_pos hc]
      exact ih _ ul (dictUpsert_nodup_fst dct c.position c h)
    · simp only [List.foldl_cons, splitStep, if_neg hc]
      exact ih dct (ul ++ [c]) h

theorem split_foldl_length : ∀ (v : List Card) (dct : List (Nat × Card)) (ul : List Card),
    (v.foldl splitStep (dct, ul)).1.length ≤ dct.length + (lockedOf v).length := by
  intro v
  induction v with
  | nil => intro dct ul; simp [lockedOf]
  | cons c rest ih =>
    intro dct ul
    by_cases h : c.is_locked
    · rw [lockedOf_cons_pos c rest h]
      simp only [List.foldl_cons, splitStep, if_pos h]
      have h1 := ih (dictUpsert dct c.position c) ul
      have h2 := dictUpsert_length dct c.position c
      simp only [List.length_cons]
      omega
    · rw [lockedOf_cons_neg c rest h]
      simp only [List.foldl_cons, splitStep, if_neg h]
      exact ih dct (ul ++ [c])

theorem split_foldl_keys_mono : ∀ (v : List Card) (dct : List (Nat × Card)) (ul : List Card)
    (k : Nat), k ∈ dct.map Prod.fst → k ∈ ((v.foldl splitStep (dct, ul)).1).map Prod.fst := by
  intro v
  induction v with
  | nil => intro dct ul k h; exact h
  | cons c rest ih =>
    intro dct ul k h
    by_cases hc : c.is_locked
    · simp only [List.foldl_cons, splitStep, if_pos hc]
      exact ih _ ul k (dictUpsert_keys_mono dct c.position k c h)
    · simp only [List.foldl_cons, splitStep, if_neg hc]
      exact ih dct (ul ++ [c]) k h

theorem split_foldl_key_mem : ∀ (v : List Card) (dct : List (Nat × Card)) (ul : List Card)
    (c : Card), c ∈ v → c.is_locked = true →
    c.position ∈ ((v.foldl splitStep (dct, ul)).1).map Prod.fst := by
  intro v
  induction v with
  | nil => intro dct ul c hm; simp at hm
  | cons b rest ih =>
    intro dct ul c hm hlock
    rcases List.mem_cons.mp hm with heq | hmem
    · subst heq
      simp only [List.foldl_cons, splitStep, if_pos hlock]
      refine split_foldl_keys_mono rest _ ul c.position ?_
      exact List.mem_map_of_mem Prod.fst (dictUpsert_mem_self dct c.position c)
    · by_cases hb : b.is_locked
      · simp only [List.foldl_cons, splitStep, if_pos hb]
        exact ih _ ul c hmem hlock
      · simp only [List.foldl_cons, splitStep, if_neg hb]
        exact ih dct (ul ++ [b]) c hmem hlock

theorem split_foldl_key_preserved : ∀ (v : List Card) (dct : List (Nat × Card)) (ul : List Card)
    (p : Nat) (c : Card), (p, c) ∈ dct → (∀ b ∈ v, b.is_locked = true → b.position ≠ p) →
    (p, c) ∈ (v.foldl splitStep (dct, ul)).1 := by
  intro v
  induction v with
  | nil => intro dct ul p c h _; exact h
  | cons b rest ih =>
    intro dct ul p c h hno
    by_cases hb : b.is_locked
    · simp only [List.foldl_cons, splitStep, if_pos hb]
      refine ih _ ul p c ?_ (fun b' hb' => hno b' (List.mem_cons_of_mem b hb'))
      refine dictUpsert_mem_ne dct b.position b (p, c) h ?_
      have := hno b (List.mem_cons_self b rest) hb
      simpa using fun hcontra => this (hcontra.symm)
    · simp only [List.foldl_cons, splitStep, if_neg hb]
      exact ih dct (ul ++ [b]) p c h (fun b' hb' => hno b' (List.mem_cons_of_mem b hb'))

theorem split_foldl_eq_of_nodup : ∀ (v : List Card) (dct : List (Nat × Card)) (ul : List Card),
    (dct.map Prod.fst ++ (lockedOf v).map Card.position).Nodup →
    (v.foldl splitStep (dct, ul)).1 = dct ++ (lockedOf v).map (fun c => (c.position, c)) := by
  intro v
  induction v with
  | nil => intro dct ul _; simp [lockedOf]
  | cons c rest ih =>
    intro dct ul hnd
    by_cases h : c.is_locked
    · simp only [lockedOf, List.filter_cons, h, if_pos] at hnd
      have hnotin : c.position ∉ dct.map Prod.fst := by
        intro hmem
        have := List.Nodup.of_append_left hnd
        have hdisj := List.disjoint_of_nodup_append hnd
        exact hdisj hmem (by simp)
      simp only [List.foldl_cons, splitStep, if_pos h]
      rw [dictUpsert_not_mem dct c.position c hnotin]
      have hnd2 : ((dct ++ [(c.position, c)]).map Prod.fst ++
          (lockedOf rest).map Card.position).Nodup := by
        simp only [List.map_append, List.map_cons, List.map_nil, List.append_assoc]
        simpa [lockedOf] using hnd
      rw [ih (dct ++ [(c.position, c)]) ul hnd2]
      simp [lockedOf, List.filter_cons, h]
    · simp only [lockedOf, List.filter_cons, h] at hnd
      simp only [List.foldl_cons, splitStep, if_neg h]
      rw [ih dct (ul ++ [c]) (by simpa [lockedOf] using hnd)]
      simp [lockedOf, List.filter_cons, h]

theorem splitVideos_snd (v : List Card) : (splitVideos v).2 = unlockedOf v := by
  simpa using split_foldl_snd v [] []

theorem splitVideos_nodup (v : List Card) : (((splitVideos v).1).map Prod.fst).Nodup :=
  split_foldl_nodup v [] [] (by simp)

theorem splitVideos_entry (v : List Card) :
    ∀ pc ∈ (splitVideos v).1, pc.1 = pc.2.position ∧ pc.2 ∈ lockedOf v := by
  intro pc hpc
  rcases split_foldl_entry v [] [] pc hpc with hm | h
  · simp at hm
  · exact h

theorem splitVideos_length (v : List Card) :
    (splitVideos v).1.length ≤ (lockedOf v).length := by
  simpa using split_foldl_length v [] []

theorem splitVideos_key_mem (v : List Card) (c : Card) (hm : c ∈ v) (hl : c.is_locked = true) :
    c.position ∈ ((splitVideos v).1).map Prod.fst :=
  split_foldl_key_mem v [] [] c hm hl

theorem splitVideos_eq_of_nodup (v : List Card)
    (h : ((lockedOf v).map Card.position).Nodup) :
    (splitVideos v).1 = (lockedOf v).map (fun c => (c.position, c)) := by
  simpa using split_foldl_eq_of_nodup v [] [] (by simpa using h)

theorem nodup_fst_eq (d : List (Nat × Card)) (hnd : (d.map Prod.fst).Nodup) (k : Nat)
    (a b : Card) (ha : (k, a) ∈ d) (hb : (k, b) ∈ d) : a = b := by
  have hinj := List.inj_on_of_nodup_map hnd
  have := hinj ha hb rfl
  exact congrArg Prod.snd this

theorem randomize_sentinel (g : Nat) (v : List Card) (p : String) (s : Int)
    (hp : p = "" ∨ p = "preview") :
    randomize_videos_with_locks g v p s = (v, []) := by
  unfold randomize_videos_with_locks
  rw [if_pos hp]

theorem randomize_no_unlocked (g : Nat) (v : List Card) (p : String) (s : Int)
    (hul : (splitVideos v).2 = []) :
    (randomize_videos_with_locks g v p s).1 = v := by
  unfold randomize_videos_with_locks
  by_cases hp : p = "" ∨ p = "preview"
  · rw [if_pos hp]
  · rw [if_neg hp]
    by_cases hv : v = []
    · rw [if_pos hv, hv]
    · rw [if_neg hv]
      simp only [hul, if_pos]

theorem randomize_of_randomizing (g : Nat) (v : List Card) (p : String) (s : Int)
    (hp1 : ¬ p = "") (hp2 : ¬ p = "preview") (hul : ¬ (splitVideos v).2 = []) :
    randomize_videos_with_locks g v p s =
      (((fillSlots (placeLocked (splitVideos v).1 v.length).1
          (pyShuffle (mtInit (seedValue s p)) (splitVideos v).2)).1).filterMap id,
        (placeLocked (splitVideos v).1 v.length).2 ++
          if (fillSlots (placeLocked (splitVideos v).1 v.length).1
              (pyShuffle (mtInit (seedValue s p)) (splitVideos v).2)).2 then
            [FeedWarning.notEnoughUnlocked] else []) := by
  have hv : ¬ v = [] := by
    intro h
    subst h
    exact hul rfl
  unfold randomize_videos_with_locks
  rw [if_neg (not_or.mpr ⟨hp1, hp2⟩), if_neg hv, if_neg hul]

theorem hexCharVal_lt (c : Char) : hexCharVal c < 16 :=
  Nat.mod_lt _ (by norm_num)

theorem hexToNat_foldl_lt : ∀ (l : List Char) (acc : Nat),
    l.foldl (fun acc c => acc * 16 + hexCharVal c) acc < (acc + 1) * 16 ^ l.length := by
  intro l
  induction l with
  | nil => intro acc; simp
  | cons c t ih =>
    intro acc
    have h1 := ih (acc * 16 + hexCharVal c)
    have h2 := hexCharVal_lt c
    have h3 : (acc * 16 + hexCharVal c + 1) * 16 ^ t.length ≤
        ((acc + 1) * 16) * 16 ^ t.length := by
      have : acc * 16 + hexCharVal c + 1 ≤ (acc + 1) * 16 := by omega
      exact Nat.mul_le_mul_right _ this
    simp only [List.foldl_cons, List.length_cons, pow_succ]
    calc (t.foldl (fun acc c => acc * 16 + hexCharVal c) (acc * 16 + hexCharVal c))
        < (acc * 16 + hexCharVal c + 1) * 16 ^ t.length := h1
      _ ≤ ((acc + 1) * 16) * 16 ^ t.length := h3
      _ = (acc + 1) * (16 ^ t.length * 16) := by ring

theorem hexToNat_lt (l : List Char) : hexToNat l < 16 ^ l.length := by
  have := hexToNat_foldl_lt l 0
  simpa [hexToNat] using this

/-- Seed formula exactly as the specification sentence describes it: the
unsigned integer read from the first 16 hexadecimal characters of the
SHA-256 digest of the UTF-8 bytes of the string formed by the decimal form
of the randomization seed, a separator, and the participant id. -/
def specSeedFormula (randomization_seed : Int) (participant_id : String) : Nat :=
  hexToNat ((sha256HexChars
    (utf8Bytes (toString randomization_seed ++ "-" ++ participant_id))).take 16)

/-- C1: for every fixed randomization seed, participant id, and input card
list, any two calls to the feed composer return the identical result; the
composer is a pure function of its three inputs and provably independent of
the process-global random state, which is modelled by the extra first
argument. -/
theorem C1_composer_deterministic (g1 g2 : Nat) (v : List Card) (p : String) (s : Int) :
    randomize_videos_with_locks g1 v p s = randomize_videos_with_locks g2 v p s := rfl

/-- C4: a composer call with an empty, absent, or preview participant id
returns the input list unchanged with no warnings, and for every
participant id a call whose unlocked subset is empty returns the input
order unchanged. -/
theorem C4_identity_on_sentinel (g : Nat) (v : List Card) (p : String) (s : Int) :
    ((p = "" ∨ p = "preview") → randomize_videos_with_locks g v p s = (v, [])) ∧
    randomize_videos_with_locks g v (effective_participant_id none) s = (v, []) ∧
    (unlockedOf v = [] → (randomize_videos_with_locks g v p s).1 = v) := by
  refine ⟨fun hp => randomize_sentinel g v p s hp,
    randomize_sentinel g v _ s (Or.inr rfl),
    fun hu => randomize_no_unlocked g v p s ?_⟩
  rw [splitVideos_snd]
  exact hu

/-- Witness for C4 at concrete inputs: the preview sentinel returns a
one-card list unchanged, and an all-locked list is returned in input order
for a non-sentinel participant. -/
theorem C4_identity_on_sentinel_witness :
    randomize_videos_with_locks 0 [Card.mk 1 0 false] ("preview") 42 =
      ([Card.mk 1 0 false], []) ∧
    (randomize_videos_with_locks 0 [Card.mk 2 0 true] ("alice") 7).1 = [Card.mk 2 0 true] :=
  ⟨(C4_identity_on_sentinel 0 [Card.mk 1 0 false] ("preview") 42).1 (Or.inr rfl),
   (C4_identity_on_sentinel 0 [Card.mk 2 0 true] ("alice") 7).2.2 (by decide)⟩

/-- C5: for every randomization seed and non-sentinel participant id, the
shuffle seed the composer feeds to random.Random equals the unsigned
integer given by the first 16 hex characters of the SHA-256 digest of the
UTF-8 bytes of the decimal seed, separator, and participant id, and that
value fits in 64 bits. -/
theorem C5_seed_derivation (s : Int) (p : String) (hp1 : p ≠ "") (hp2 : p ≠ "preview") :
    seedValue s p = specSeedFormula s p ∧ seedValue s p < 2 ^ 64 := by
  constructor
  · rfl
  · have h1 := hexToNat_lt ((sha256HexChars
      (utf8Bytes (seed_string s p))).take HASH_SEED_LENGTH)
    have h2 : ((sha256HexChars (utf8Bytes (seed_string s p))).take
        HASH_SEED_LENGTH).length ≤ 16 := by
      simpa [HASH_SEED_LENGTH] using List.length_take_le HASH_SEED_LENGTH _
    have h3 : (16 : Nat) ^ ((sha256HexChars (utf8Bytes (seed_string s p))).take
        HASH_SEED_LENGTH).length ≤ 16 ^ 16 :=
      Nat.pow_le_pow_right (by norm_num) h2
    have h4 : (16 : Nat) ^ 16 = 2 ^ 64 := by norm_num
    calc seedValue s p < 16 ^ ((sha256HexChars (utf8Bytes (seed_string s p))).take
          HASH_SEED_LENGTH).length := h1
      _ ≤ 16 ^ 16 := h3
      _ = 2 ^ 64 := h4

/-- Witness for C5 at seed 42 and participant alice. -/
theorem C5_seed_derivation_witness :
    (("alice" : String) ≠ "" ∧ ("alice" : String) ≠ "preview") ∧
    seedValue 42 ("alice") = specSeedFormula 42 ("alice") ∧
    seedValue 42 ("alice") < 2 ^ 64 :=
  ⟨⟨by decide, by decide⟩, C5_seed_derivation 42 ("alice") (by decide) (by decide)⟩

theorem max?_append_singleton (l : List Int) (a : Int) :
    (l ++ [a]).max? = some (match l.max? with | none => a | some m => max m a) := by
  cases l with
  | nil => rfl
  | cons b t => simp [List.max?, List.foldl_append]

theorem maxInt_range : ∀ n : Nat, ((List.range (n + 1)).map (fun (i : Nat) => (i : Int))).max? =
    some (n : Int) := by
  intro n
  induction n with
  | zero => rfl
  | succ n ih =>
    rw [List.range_succ, List.map_append]
    simp only [List.map_cons, List.map_nil]
    rw [max?_append_singleton, ih]
    have hle : ((n : Int)) ≤ (((n + 1 : Nat) : Int)) := by push_cast; omega
    show some (max ((n : Int)) (((n + 1 : Nat) : Int))) = some (((n + 1 : Nat) : Int))
    rw [max_eq_right hle]

/-- C9: an appended card gets position one past the maximum position of the
existing cards of the collection, or zero when the collection is empty, and
appending cards in sequence to an empty collection yields positions
0, 1, ..., N-1 in call order. -/
theorem C9_append_position :
    (∀ (cards : List Card) (m : Int),
        (cards.map (fun c => (c.position : Int))).max? = some m →
        next_append_position cards = 1 + m) ∧
    next_append_position [] = 0 ∧
    (∀ n : Nat, (appendSeq n).map Card.position = List.range n) := by
  refine ⟨?_, rfl, ?_⟩
  · intro cards m hm
    unfold next_append_position
    rw [hm]
    show m + 1 = 1 + m
    omega
  · intro n
    induction n with
    | zero => rfl
    | succ n ih =>
      have hmap : (appendSeq n).map (fun c => (c.position : Int)) =
          (List.range n).map (fun (i : Nat) => (i : Int)) := by
        rw [show (fun c : Card => (c.position : Int)) =
          (fun (i : Nat) => (i : Int)) ∘ Card.position from rfl, ← List.map_map, ih]
      have hpos : (next_append_position (appendSeq n)).toNat = n := by
        unfold next_append_position
        rw [hmap]
        cases n with
        | zero => rfl
        | succ k =>
          rw [maxInt_range k]
          simp only []
          push_cast
          omega
      show ((appendSeq n) ++
        [Card.mk n (next_append_position (appendSeq n)).toNat false]).map Card.position =
        List.range (n + 1)
      rw [List.map_append, ih, hpos, List.range_succ]
      rfl

/-- Witness for C9: a two-card collection with maximum position 3 gets the
next position 4. -/
theorem C9_append_position_witness :
    (([Card.mk 0 3 false, Card.mk 1 1 false].map (fun c => (c.position : Int))).max? =
      some 3) ∧
    next_append_position [Card.mk 0 3 false, Card.mk 1 1 false] = 1 + 3 := by
  have h : (([Card.mk 0 3 false, Card.mk 1 1 false].map
      (fun c => (c.position : Int))).max? = some 3) := by decide
  exact ⟨h, C9_append_position.1 [Card.mk 0 3 false, Card.mk 1 1 false] 3 h⟩

theorem reorder_apply_of_error (videos : List Card) (ordered : List Nat) (e : ReorderError)
    (h : reorder_videos videos ordered = Except.error e) :
    reorder_apply videos ordered = (videos, some e) := by
  unfold reorder_apply
  rw [h]

theorem reorder_apply_of_ok (videos : List Card) (ordered : List Nat) (vs : List Card)
    (h : reorder_videos videos ordered = Except.ok vs) :
    reorder_apply videos ordered = (vs, none) := by
  unfold reorder_apply
  rw [h]

theorem dedup_length_eq_iff (l : List Nat) : l.dedup.length = l.length ↔ l.Nodup := by
  constructor
  · intro h
    have heq := List.Sublist.eq_of_length (List.dedup_sublist l) h
    rw [← heq]
    exact List.nodup_dedup l
  · intro h
    rw [List.dedup_eq_self.mpr h]

theorem indexOf_self_map (l : List Nat) (h : l.Nodup) :
    l.map (fun i => l.indexOf i) = List.range l.length := by
  induction l with
  | nil => rfl
  | cons a t ih =>
    simp only [List.nodup_cons] at h
    simp only [List.map_cons, List.indexOf_cons_self, List.length_cons,
      List.range_succ_eq_map]
    congr 1
    have hstep : t.map (fun i => (a :: t).indexOf i) = t.map (fun i => t.indexOf i + 1) := by
      apply List.map_congr_left
      intro i hi
      have hne : a ≠ i := fun hc => h.1 (by rw [hc]; exact hi)
      rw [List.indexOf_cons_ne t hne]
    rw [hstep, ← ih h.2, List.map_map]
    rfl

/-- Counterexample to C7 as stated: a collection of zero cards given the
non-empty id list [5] is not rejected with a count-mismatch validation
error; the call succeeds as a no-op. -/
theorem C7_count_validation_cex :
    ([(5 : Nat)].length ≠ ([] : List Card).length) ∧
    reorder_videos ([] : List Card) [5] = Except.ok [] ∧
    (∀ e : ReorderError, reorder_videos ([] : List Card) [5] ≠ Except.error e) := by
  refine ⟨by decide, rfl, ?_⟩
  intro e h
  rw [show reorder_videos ([] : List Card) [5] = Except.ok [] from rfl] at h
  exact Except.noConfusion h

/-- C7 amended: for every nonempty collection, a reorder request whose id
count differs from the collection size is rejected with a validation error
reporting expected versus provided counts; an empty collection accepts any
id list as a no-op, in particular the empty list. -/
theorem C7_count_validation (videos : List Card) (ordered : List Nat)
    (hne : videos ≠ []) (hc : ordered.length ≠ videos.length) :
    reorder_videos videos ordered =
      Except.error (ReorderError.countMismatch videos.length ordered.length) ∧
    (∀ ordered2 : List Nat, reorder_videos [] ordered2 = Except.ok []) := by
  constructor
  · unfold reorder_videos
    rw [if_neg (by simpa [List.length_eq_zero] using hne), if_pos hc]
  · intro ordered2
    rfl

/-- Witness for C7 at a one-card collection and a two-id request. -/
theorem C7_count_validation_witness :
    (([Card.mk 1 0 false] : List Card) ≠ [] ∧ [(1 : Nat), 2].length ≠
      [Card.mk 1 0 false].length) ∧
    reorder_videos [Card.mk 1 0 false] [1, 2] =
      Except.error (ReorderError.countMismatch 1 2) ∧
    reorder_videos ([] : List Card) [] = Except.ok [] := by
  have h := C7_count_validation [Card.mk 1 0 false] [1, 2] (by decide) (by decide)
  exact ⟨⟨by decide, by decide⟩, h.1, h.2 []⟩

/-- Counterexample to C8 as stated: for the empty collection and id list
[5] the count validation fails (1 differs from 0), yet the request is not
rejected: the reorder applies as a successful no-op. -/
theorem C8_reorder_atomic_cex :
    ([(5 : Nat)].length ≠ ([] : List Card).length) ∧
    (reorder_apply ([] : List Card) [5]).2 = none := by
  exact ⟨by decide, rfl⟩

/-- C8 amended: for every nonempty collection, a reorder request failing
any validation (count mismatch, duplicated id, or an id outside the
collection) is rejected with no position change, and a request passing all
validations updates every card to the position given by the index of its id
in the supplied order, yielding a contiguous 0..N-1 assignment; an empty
collection accepts any request as a no-op. -/
theorem C8_reorder_atomic (videos : List Card) (ordered : List Nat) (hne : videos ≠ []) :
    ((ordered.length ≠ videos.length ∨ ¬ ordered.Nodup ∨
        (∃ i ∈ ordered, ∀ v ∈ videos, v.id ≠ i)) →
      (reorder_apply videos ordered).1 = videos ∧
        (reorder_apply videos ordered).2 ≠ none) ∧
    ((ordered.length = videos.length ∧ ordered.Nodup ∧
        (∀ i ∈ ordered, ∃ v ∈ videos, v.id = i)) →
      (reorder_apply videos ordered).2 = none ∧
      (reorder_apply videos ordered).1 =
        videos.map (fun v => Card.mk v.id (ordered.indexOf v.id) v.is_locked) ∧
      (((reorder_apply videos ordered).1.map Card.position).Perm
        (List.range videos.length))) := by
  have hlen0 : ¬ videos.length = 0 := by simpa [List.length_eq_zero] using hne
  constructor
  · intro hfail
    have herr : ∃ e, reorder_videos videos ordered = Except.error e := by
      unfold reorder_videos
      rw [if_neg hlen0]
      by_cases h1 : ordered.length ≠ videos.length
      · rw [if_pos h1]
        exact ⟨_, rfl⟩
      · rw [if_neg h1]
        by_cases h2 : ordered.length ≠ ordered.dedup.length
        · rw [if_pos h2]
          exact ⟨_, rfl⟩
        · rw [if_neg h2]
          have hnd : ordered.Nodup := by
            refine (dedup_length_eq_iff ordered).mp ?_
            omega
          obtain ⟨i, hi, hnov⟩ : ∃ i ∈ ordered, ∀ v ∈ videos, v.id ≠ i := by
            rcases hfail with h | h | h
            · exact absurd h h1
            · exact absurd hnd h
            · exact h
          have hmem : i ∈ ordered.filter (fun j => ¬ videos.any (fun v => v.id = j)) := by
            apply List.mem_filter.mpr
            refine ⟨hi, ?_⟩
            simp only [List.any_eq_true, decide_eq_true_eq, not_exists]
            intro v hv
            exact hnov v hv.1 hv.2
          rw [if_pos (List.ne_nil_of_mem hmem)]
          exact ⟨_, rfl⟩
    obtain ⟨e, he⟩ := herr
    rw [reorder_apply_of_error videos ordered e he]
    exact ⟨rfl, by simp⟩
  · rintro ⟨hlen, hnd, hall⟩
    have hsub : ordered ⊆ videos.map Card.id := by
      intro i hi
      obtain ⟨v, hv, heq⟩ := hall i hi
      exact heq ▸ List.mem_map_of_mem Card.id hv
    have hperm : ordered.Perm (videos.map Card.id) := by
      obtain ⟨l2, hp, hs⟩ := List.Nodup.subperm hnd hsub
      have hl2 : l2.length = (videos.map Card.id).length := by
        rw [hp.length_eq, hlen, List.length_map]
      rw [List.Sublist.eq_of_length hs hl2] at hp
      exact hp.symm
    have hok : reorder_videos videos ordered = Except.ok (videos.map (fun v =>
        if v.id ∈ ordered then Card.mk v.id (ordered.indexOf v.id) v.is_locked else v)) := by
      unfold reorder_videos
      have hdup : ¬ ordered.length ≠ ordered.dedup.length := by
        have := (dedup_length_eq_iff ordered).mpr hnd
        omega
      have hmiss : ¬ ordered.filter (fun j => ¬ videos.any (fun v => v.id = j)) ≠ [] := by
        simp only [ne_eq, not_not]
        apply List.filter_eq_nil_iff.mpr
        intro j hj
        obtain ⟨v, hv, heq⟩ := hall j hj
        simp only [List.any_eq_true, decide_eq_true_eq, not_exists, decide_not,
          Bool.not_eq_true', decide_eq_false_iff_not, not_not, not_forall]
        exact ⟨v, hv, heq⟩
      rw [if_neg hlen0, if_neg (by omega), if_neg hdup, if_neg hmiss]
    have hmapeq : videos.map (fun v =>
        if v.id ∈ ordered then Card.mk v.id (ordered.indexOf v.id) v.is_locked else v) =
        videos.map (fun v => Card.mk v.id (ordered.indexOf v.id) v.is_locked) := by
      apply List.map_congr_left
      intro v hv
      have : v.id ∈ ordered := hperm.mem_iff.mpr (List.mem_map_of_mem Card.id hv)
      rw [if_pos this]
    rw [hmapeq] at hok
    rw [reorder_apply_of_ok videos ordered _ hok]
    refine ⟨rfl, rfl, ?_⟩
    have h1 : (videos.map (fun v => Card.mk v.id (ordered.indexOf v.id) v.is_locked)).map
        Card.position = (videos.map Card.id).map (fun i => ordered.indexOf i) := by
      rw [List.map_map, List.map_map]
      rfl
    have h2 : ((videos.map Card.id).map (fun i => ordered.indexOf i)).Perm
        (ordered.map (fun i => ordered.indexOf i)) := (hperm.symm).map _
    have h3 : ordered.map (fun i => ordered.indexOf i) = List.range videos.length := by
      rw [indexOf_self_map ordered hnd, hlen]
    simp only [h1]
    rw [← h3]
    exact h2

/-- Witness for C8 at a two-card collection: a duplicated id is rejected
with no change, and a valid permutation request assigns positions by index
and covers 0..1. -/
theorem C8_reorder_atomic_witness :
    (([Card.mk 1 5 false, Card.mk 2 9 false] : List Card) ≠ [] ∧
      ¬ [(1 : Nat), 1].Nodup ∧
      ([(2 : Nat), 1].length = [Card.mk 1 5 false, Card.mk 2 9 false].length ∧
        [(2 : Nat), 1].Nodup ∧
        ∀ i ∈ [(2 : Nat), 1], ∃ v ∈ [Card.mk 1 5 false, Card.mk 2 9 false], v.id = i)) ∧
    ((reorder_apply [Card.mk 1 5 false, Card.mk 2 9 false] [1, 1]).1 =
        [Card.mk 1 5 false, Card.mk 2 9 false] ∧
      (reorder_apply [Card.mk 1 5 false, Card.mk 2 9 false] [1, 1]).2 ≠ none) ∧
    ((reorder_apply [Card.mk 1 5 false, Card.mk 2 9 false] [2, 1]).2 = none ∧
      (reorder_apply [Card.mk 1 5 false, Card.mk 2 9 false] [2, 1]).1 =
        [Card.mk 1 1 false, Card.mk 2 0 false] ∧
      (((reorder_apply [Card.mk 1 5 false, Card.mk 2 9 false] [2, 1]).1.map
        Card.position).Perm (List.range 2))) := by
  have hA := (C8_reorder_atomic [Card.mk 1 5 false, Card.mk 2 9 false] [1, 1]
    (by decide)).1 (Or.inr (Or.inl (by decide)))
  have hB := (C8_reorder_atomic [Card.mk 1 5 false, Card.mk 2 9 false] [2, 1]
    (by decide)).2 ⟨by decide, by decide, by decide⟩
  refine ⟨⟨by decide, by decide, by decide, by decide, by decide⟩, hA, hB.1, ?_, hB.2.2⟩
  rw [hB.2.1]
  decide

theorem replicate_none_getElem : ∀ (n i : Nat), i < n →
    (List.replicate n (none : Option Card))[i]? = some none := by
  intro n
  induction n with
  | zero => intro i h; omega
  | succ n ih =>
    intro i h
    cases i with
    | zero => simp [List.replicate_succ]
    | succ i =>
      rw [List.replicate_succ]
      simpa using ih i (by omega)

theorem filterMap_replicate_none : ∀ n : Nat,
    ((List.replicate n (none : Option Card)).filterMap id) = [] := by
  intro n
  induction n with
  | zero => rfl
  | succ n ih => simp [List.replicate_succ, List.filterMap_cons, ih]

theorem toFinset_eq_of_perm (l1 l2 : List Nat) (h : l1.Perm l2) :
    l1.toFinset = l2.toFinset := by
  ext a
  simp [List.mem_toFinset, h.mem_iff]

theorem randomize_perm_of_wellformed (g : Nat) (v : List Card) (p : String) (s : Int)
    (hpos : (v.map Card.position).Nodup) (hrange : ∀ c ∈ v, c.position < v.length) :
    ((randomize_videos_with_locks g v p s).1).Perm v := by
  by_cases hp : p = "" ∨ p = "preview"
  · rw [randomize_sentinel g v p s hp]
  · push_neg at hp
    by_cases hul : (splitVideos v).2 = []
    · rw [randomize_no_unlocked g v p s hul]
    · rw [randomize_of_randomizing g v p s hp.1 hp.2 hul]
      have hlock_nodup : ((lockedOf v).map Card.position).Nodup := by
        refine List.Nodup.sublist (List.Sublist.map Card.position ?_) hpos
        exact List.filter_sublist v
      have hdict : (splitVideos v).1 = (lockedOf v).map (fun c => (c.position, c)) :=
        splitVideos_eq_of_nodup v hlock_nodup
      have hkeys : ∀ pc ∈ (splitVideos v).1, pc.1 < v.length := by
        rw [hdict]
        intro pc hpc
        obtain ⟨c, hc, heq⟩ := List.mem_map.mp hpc
        rw [← heq]
        exact hrange c (List.mem_of_mem_filter hc)
      have hnodup_keys := splitVideos_nodup v
      have hslot : ∀ pc ∈ (splitVideos v).1, pc.1 < v.length →
          (List.replicate v.length (none : Option Card))[pc.1]? = some none :=
        fun pc _ h => replicate_none_getElem v.length pc.1 h
      have hcount := place_foldl_countNone (splitVideos v).1 v.length
        (List.replicate v.length none) [] hnodup_keys hslot
      rw [countNone_replicate] at hcount
      have hinr := countInRange_eq_length_of_all v.length (splitVideos v).1 hkeys
      have hdlen : (splitVideos v).1.length = (lockedOf v).length := by
        rw [hdict, List.length_map]
      have hul_eq : (splitVideos v).2 = unlockedOf v := splitVideos_snd v
      have hshuf_perm : (pyShuffle (mtInit (seedValue s p)) (splitVideos v).2).Perm
          (unlockedOf v) := by
        rw [← hul_eq]
        exact pyShuffle_perm _ _
      have hshuf_len : (pyShuffle (mtInit (seedValue s p)) (splitVideos v).2).length =
          (unlockedOf v).length := hshuf_perm.length_eq
      have hLU := length_locked_add_unlocked v
      have hcn : countNone (placeLocked (splitVideos v).1 v.length).1 =
          (unlockedOf v).length := by
        unfold placeLocked
        omega
      have h1 := fillSlots_filterMap_perm (placeLocked (splitVideos v).1 v.length).1
        (pyShuffle (mtInit (seedValue s p)) (splitVideos v).2)
      have h2 := place_foldl_filterMap_perm (splitVideos v).1 v.length
        (List.replicate v.length none) [] hnodup_keys hslot
      have h3 : inRangeValues v.length (splitVideos v).1 = lockedOf v := by
        rw [inRangeValues_eq_of_all v.length (splitVideos v).1 hkeys, hdict, List.map_map]
        exact List.map_id (lockedOf v)
      have htake : (pyShuffle (mtInit (seedValue s p)) (splitVideos v).2).take
          (countNone (placeLocked (splitVideos v).1 v.length).1) =
          pyShuffle (mtInit (seedValue s p)) (splitVideos v).2 := by
        rw [hcn, ← hshuf_len]
        exact List.take_length _
      rw [htake] at h1
      have h2' : (((placeLocked (splitVideos v).1 v.length).1).filterMap id).Perm
          (lockedOf v) := by
        unfold placeLocked
        rw [h3, filterMap_replicate_none, List.append_nil] at h2
        exact h2
      refine h1.trans ?_
      refine (List.Perm.append h2' hshuf_perm).trans ?_
      exact locked_append_unlocked_perm v

/-- C3: for every well-formed input card list (positions pairwise distinct
and each a valid index) the composer output has the same length as the
input and exactly the same set of card ids, for every participant id and
randomization seed. -/
theorem C3_set_preservation (g : Nat) (v : List Card) (p : String) (s : Int)
    (hpos : (v.map Card.position).Nodup) (hrange : ∀ c ∈ v, c.position < v.length) :
    (randomize_videos_with_locks g v p s).1.length = v.length ∧
    ((randomize_videos_with_locks g v p s).1.map Card.id).toFinset =
      (v.map Card.id).toFinset := by
  have hperm := randomize_perm_of_wellformed g v p s hpos hrange
  exact ⟨hperm.length_eq, toFinset_eq_of_perm _ _ (hperm.map Card.id)⟩

/-- Witness for C3 at a three-card list with one locked card and a
non-sentinel participant. -/
theorem C3_set_preservation_witness :
    (([Card.mk 10 0 false, Card.mk 11 1 true, Card.mk 12 2 false].map
        Card.position).Nodup ∧
      ∀ c ∈ [Card.mk 10 0 false, Card.mk 11 1 true, Card.mk 12 2 false],
        c.position < [Card.mk 10 0 false, Card.mk 11 1 true, Card.mk 12 2 false].length) ∧
    (randomize_videos_with_locks 0 [Card.mk 10 0 false, Card.mk 11 1 true, Card.mk 12 2 false]
        ("bob") 42).1.length = 3 ∧
    ((randomize_videos_with_locks 0 [Card.mk 10 0 false, Card.mk 11 1 true, Card.mk 12 2 false]
        ("bob") 42).1.map Card.id).toFinset =
      ([Card.mk 10 0 false, Card.mk 11 1 true, Card.mk 12 2 false].map Card.id).toFinset := by
  have h := C3_set_preservation 0
    [Card.mk 10 0 false, Card.mk 11 1 true, Card.mk 12 2 false] ("bob") 42
    (by decide) (by decide)
  exact ⟨⟨by decide, by decide⟩, h.1, h.2⟩

/-- Counterexample to C2 as stated: in the list with an unlocked card at
position 0, a locked card with valid position 2, and a locked card with
corrupted position 10, the locked card with valid position 2 does not end
up at index 2: slot filling exhausts the single unlocked card, the empty
slot at index 1 is removed, and the output only has two entries. -/
theorem C2_lock_preservation_cex :
    (Card.mk 1 2 true ∈ [Card.mk 0 0 false, Card.mk 1 2 true, Card.mk 2 10 true] ∧
      (Card.mk 1 2 true).is_locked = true ∧
      (Card.mk 1 2 true).position <
        [Card.mk 0 0 false, Card.mk 1 2 true, Card.mk 2 10 true].length) ∧
    ¬ ((((randomize_videos_with_locks 0
        [Card.mk 0 0 false, Card.mk 1 2 true, Card.mk 2 10 true] ("a") 0).1)[
          (Card.mk 1 2 true).position]?).map Card.id = some (Card.mk 1 2 true).id) := by
  refine ⟨⟨by decide, by decide, by decide⟩, ?_⟩
  decide

/-- C2 amended: when the composer actually randomizes (non-sentinel
participant, at least one unlocked card) and the locked cards carry
pairwise distinct positions all below the input length, every locked card
appears in the output at exactly its position index. -/
theorem C2_lock_preservation (g : Nat) (v : List Card) (p : String) (s : Int) (c : Card)
    (hp1 : p ≠ "") (hp2 : p ≠ "preview") (hul : unlockedOf v ≠ [])
    (hlnodup : ((lockedOf v).map Card.position).Nodup)
    (hlrange : ∀ b ∈ lockedOf v, b.position < v.length)
    (hc : c ∈ v) (hlock : c.is_locked = true) :
    ((((randomize_videos_with_locks g v p s).1)[c.position]?).map Card.id) = some c.id := by
  have hul' : ¬ (splitVideos v).2 = [] := by
    rw [splitVideos_snd]
    exact hul
  rw [randomize_of_randomizing g v p s hp1 hp2 hul']
  have hcl : c ∈ lockedOf v := List.mem_filter.mpr ⟨hc, hlock⟩
  have hcpos : c.position < v.length := hlrange c hcl
  have hdict : (splitVideos v).1 = (lockedOf v).map (fun b => (b.position, b)) :=
    splitVideos_eq_of_nodup v hlnodup
  have hkeys : ∀ pc ∈ (splitVideos v).1, pc.1 < v.length := by
    rw [hdict]
    intro pc hpc
    obtain ⟨b, hb, heq⟩ := List.mem_map.mp hpc
    rw [← heq]
    exact hlrange b hb
  have hnodup_keys := splitVideos_nodup v
  have hslot : ∀ pc ∈ (splitVideos v).1, pc.1 < v.length →
      (List.replicate v.length (none : Option Card))[pc.1]? = some none :=
    fun pc _ h => replicate_none_getElem v.length pc.1 h
  have hmem : (c.position, c) ∈ (splitVideos v).1 := by
    rw [hdict]
    exact List.mem_map_of_mem (fun b => (b.position, b)) hcl
  have hhit : ((placeLocked (splitVideos v).1 v.length).1)[c.position]? = some (some c) := by
    unfold placeLocked
    exact place_foldl_hit (splitVideos v).1 v.length (List.replicate v.length none) []
      c.position c hnodup_keys hmem hcpos (List.length_replicate v.length none)
  have hfillget := fillSlots_getElem (placeLocked (splitVideos v).1 v.length).1
    (pyShuffle (mtInit (seedValue s p)) (splitVideos v).2) c.position c hhit
  have hcount := place_foldl_countNone (splitVideos v).1 v.length
    (List.replicate v.length none) [] hnodup_keys hslot
  rw [countNone_replicate] at hcount
  have hinr := countInRange_eq_length_of_all v.length (splitVideos v).1 hkeys
  have hdlen : (splitVideos v).1.length = (lockedOf v).length := by
    rw [hdict, List.length_map]
  have hshuf_len : (pyShuffle (mtInit (seedValue s p)) (splitVideos v).2).length =
      (unlockedOf v).length := by
    rw [(pyShuffle_perm _ _).length_eq, splitVideos_snd]
  have hLU := length_locked_add_unlocked v
  have hfilledcn : countNone (fillSlots (placeLocked (splitVideos v).1 v.length).1
      (pyShuffle (mtInit (seedValue s p)) (splitVideos v).2)).1 = 0 := by
    rw [fillSlots_countNone]
    unfold placeLocked
    omega
  have := filterMap_getElem_of_full _ c.position c hfilledcn hfillget
  rw [this]
  rfl

/-- Witness for C2 at a two-card list with one locked card at position 1
and a non-sentinel participant. -/
theorem C2_lock_preservation_witness :
    (("w" : String) ≠ "" ∧ ("w" : String) ≠ "preview" ∧
      unlockedOf [Card.mk 5 0 false, Card.mk 6 1 true] ≠ [] ∧
      ((lockedOf [Card.mk 5 0 false, Card.mk 6 1 true]).map Card.position).Nodup ∧
      (∀ b ∈ lockedOf [Card.mk 5 0 false, Card.mk 6 1 true],
        b.position < [Card.mk 5 0 false, Card.mk 6 1 true].length) ∧
      Card.mk 6 1 true ∈ [Card.mk 5 0 false, Card.mk 6 1 true] ∧
      (Card.mk 6 1 true).is_locked = true) ∧
    ((((randomize_videos_with_locks 0 [Card.mk 5 0 false, Card.mk 6 1 true] ("w") 3).1)[
      (Card.mk 6 1 true).position]?).map Card.id) = some (Card.mk 6 1 true).id := by
  refine ⟨⟨by decide, by decide, by decide, by decide, by decide, by decide, by decide⟩, ?_⟩
  exact C2_lock_preservation 0 [Card.mk 5 0 false, Card.mk 6 1 true] ("w") 3
    (Card.mk 6 1 true) (by decide) (by decide) (by decide) (by decide) (by decide)
    (by decide) (by decide)

theorem place_foldl_warns_shape : ∀ (d : List (Nat × Card)) (n : Nat)
    (init : List (Option Card)) (ws : List FeedWarning),
    ∀ w ∈ (d.foldl (placeStep n) (init, ws)).2, w ∈ ws ∨ ∃ i, w = FeedWarning.oobLock i := by
  intro d
  induction d with
  | nil => intro n init ws w hw; exact Or.inl hw
  | cons pc rest ih =>
    intro n init ws w hw
    simp only [List.foldl_cons, placeStep] at hw
    by_cases h : pc.1 < n
    · rw [if_pos h] at hw
      exact ih n _ ws w hw
    · rw [if_neg h] at hw
      rcases ih n init (ws ++ [FeedWarning.oobLock pc.2.id]) w hw with hm | he
      · rcases List.mem_append.mp hm with hm2 | hm2
        · exact Or.inl hm2
        · right
          exact ⟨pc.2.id, by simpa using hm2⟩
      · exact Or.inr he

theorem output_mem_cases (g : Nat) (v : List Card) (p : String) (s : Int)
    (hp1 : p ≠ "") (hp2 : p ≠ "preview") (hul : ¬ (splitVideos v).2 = []) :
    ∀ c ∈ (randomize_videos_with_locks g v p s).1,
      c ∈ inRangeValues v.length (splitVideos v).1 ∨ c ∈ unlockedOf v := by
  intro c hc
  rw [randomize_of_randomizing g v p s hp1 hp2 hul] at hc
  have hfm := fillSlots_filterMap_perm (placeLocked (splitVideos v).1 v.length).1
    (pyShuffle (mtInit (seedValue s p)) (splitVideos v).2)
  have hc2 := hfm.mem_iff.mp hc
  rcases List.mem_append.mp hc2 with hm | hm
  · have hpl := place_foldl_filterMap_perm (splitVideos v).1 v.length
      (List.replicate v.length none) [] (splitVideos_nodup v)
      (fun pc _ h => replicate_none_getElem v.length pc.1 h)
    rw [filterMap_replicate_none, List.append_nil] at hpl
    left
    have : c ∈ ((placeLocked (splitVideos v).1 v.length).1).filterMap id := hm
    unfold placeLocked at this
    exact hpl.mem_iff.mp this
  · right
    have hsub := List.take_subset
      (countNone (placeLocked (splitVideos v).1 v.length).1)
      (pyShuffle (mtInit (seedValue s p)) (splitVideos v).2)
    have : c ∈ pyShuffle (mtInit (seedValue s p)) (splitVideos v).2 := hsub hm
    have hperm := pyShuffle_perm (mtInit (seedValue s p)) (splitVideos v).2
    have hc3 := hperm.mem_iff.mp this
    rw [splitVideos_snd] at hc3
    exact hc3

theorem mem_unlockedOf_not_locked (v : List Card) (c : Card) (h : c ∈ unlockedOf v) :
    c.is_locked = false := by
  have := List.of_mem_filter h
  simpa using this

theorem randomize_output_length (g : Nat) (v : List Card) (p : String) (s : Int)
    (hp1 : p ≠ "") (hp2 : p ≠ "preview") (hul : ¬ (splitVideos v).2 = []) :
    (randomize_videos_with_locks g v p s).1.length =
      v.length - countNone (fillSlots (placeLocked (splitVideos v).1 v.length).1
        (pyShuffle (mtInit (seedValue s p)) (splitVideos v).2)).1 := by
  rw [randomize_of_randomizing g v p s hp1 hp2 hul]
  rw [filterMap_length_sub, fillSlots_length]
  unfold placeLocked
  rw [place_foldl_length, List.length_replicate]

theorem c6_concrete_scenario :
    ((randomize_videos_with_locks 0
        [Card.mk 0 0 false, Card.mk 1 1 false, Card.mk 2 10 true] ("p1") 42).1).Perm
      [Card.mk 0 0 false, Card.mk 1 1 false] := by
  rw [randomize_of_randomizing 0
    [Card.mk 0 0 false, Card.mk 1 1 false, Card.mk 2 10 true] ("p1") 42
    (by decide) (by decide) (by decide)]
  have hp1l : (placeLocked (splitVideos
      [Card.mk 0 0 false, Card.mk 1 1 false, Card.mk 2 10 true]).1
      ([Card.mk 0 0 false, Card.mk 1 1 false, Card.mk 2 10 true]).length).1 =
      [none, none, none] := by decide
  rw [hp1l]
  have hsnd : (splitVideos [Card.mk 0 0 false, Card.mk 1 1 false, Card.mk 2 10 true]).2 =
      [Card.mk 0 0 false, Card.mk 1 1 false] := by decide
  have hshufp : (pyShuffle (mtInit (seedValue 42 ("p1")))
      (splitVideos [Card.mk 0 0 false, Card.mk 1 1 false, Card.mk 2 10 true]).2).Perm
      [Card.mk 0 0 false, Card.mk 1 1 false] := by
    rw [hsnd]
    exact pyShuffle_perm _ _
  have hfm := fillSlots_filterMap_perm [none, none, none]
    (pyShuffle (mtInit (seedValue 42 ("p1")))
      (splitVideos [Card.mk 0 0 false, Card.mk 1 1 false, Card.mk 2 10 true]).2)
  refine hfm.trans ?_
  rw [show ([none, none, none] : List (Option Card)).filterMap id = [] from rfl]
  rw [show countNone [none, none, none] = 3 from rfl]
  rw [List.take_of_length_le (by rw [hshufp.length_eq]; decide)]
  rw [List.nil_append]
  exact hshufp

/-- C6: in the randomizing path (non-sentinel participant id and at least
one unlocked card, the only path on which the slot-filling of the composer
runs) the composer never fails: a locked card with an out-of-range position
is dropped and the returned list is strictly shorter than the input (the
output is a plain card list, so no null entry can occur); whenever the
unlocked cards run out before all empty slots are filled the returned list
is also strictly shorter than the input; and on the concrete 3-card
scenario with the third card locked at corrupted position 10 the output is
exactly the two unlocked cards, in shuffle order. -/
theorem C6_graceful_degradation (g : Nat) (v : List Card) (p : String) (s : Int)
    (hp1 : p ≠ "") (hp2 : p ≠ "preview") (hul : unlockedOf v ≠ []) :
    (∀ c ∈ v, c.is_locked = true → v.length ≤ c.position →
      (randomize_videos_with_locks g v p s).1.length < v.length ∧
      c ∉ (randomize_videos_with_locks g v p s).1) ∧
    (FeedWarning.notEnoughUnlocked ∈ (randomize_videos_with_locks g v p s).2 →
      (randomize_videos_with_locks g v p s).1.length < v.length) ∧
    ((randomize_videos_with_locks 0
        [Card.mk 0 0 false, Card.mk 1 1 false, Card.mk 2 10 true] ("p1") 42).1).Perm
      [Card.mk 0 0 false, Card.mk 1 1 false] := by
  have hul' : ¬ (splitVideos v).2 = [] := by
    rw [splitVideos_snd]
    exact hul
  have hnodup_keys := splitVideos_nodup v
  have hcount : countNone (placeLocked (splitVideos v).1 v.length).1 +
      countInRange v.length (splitVideos v).1 = v.length := by
    unfold placeLocked
    have h := place_foldl_countNone (splitVideos v).1 v.length
      (List.replicate v.length none) [] hnodup_keys
      (fun pc _ h => replicate_none_getElem v.length pc.1 h)
    rw [countNone_replicate] at h
    exact h
  have hdl := splitVideos_length v
  have hLU := length_locked_add_unlocked v
  have hU : (unlockedOf v).length ≠ 0 := by
    simpa [List.length_eq_zero] using hul
  have hshuf_len : (pyShuffle (mtInit (seedValue s p)) (splitVideos v).2).length =
      (unlockedOf v).length := by
    rw [(pyShuffle_perm _ _).length_eq, splitVideos_snd]
  have hcnfill := fillSlots_countNone (placeLocked (splitVideos v).1 v.length).1
    (pyShuffle (mtInit (seedValue s p)) (splitVideos v).2)
  have houtlen := randomize_output_length g v p s hp1 hp2 hul'
  refine ⟨?_, ?_, ?_⟩
  · intro c hc hlock hoob
    have hkey := splitVideos_key_mem v c hc hlock
    obtain ⟨pc, hpc, hpck⟩ := List.mem_map.mp hkey
    have hK := countInRange_lt_length_of_oob v.length (splitVideos v).1 pc hpc
      (by omega)
    constructor
    · omega
    · intro hmem
      rcases output_mem_cases g v p s hp1 hp2 hul' c hmem with hin | hin
      · obtain ⟨qc, hqc, hlt, hval⟩ := mem_inRangeValues v.length (splitVideos v).1 c hin
        have := (splitVideos_entry v qc hqc).1
        rw [hval] at this
        omega
      · have := mem_unlockedOf_not_locked v c hin
        rw [hlock] at this
        exact Bool.noConfusion this
  · intro hw
    rw [randomize_of_randomizing g v p s hp1 hp2 hul'] at hw
    rcases List.mem_append.mp hw with hm | hm
    · have hshape := place_foldl_warns_shape (splitVideos v).1 v.length
        (List.replicate v.length none) [] FeedWarning.notEnoughUnlocked
        (by unfold placeLocked at hm; exact hm)
      rcases hshape with h0 | ⟨i, hi⟩
      · exact absurd h0 (List.not_mem_nil _)
      · exact FeedWarning.noConfusion hi
    · by_cases hf : (fillSlots (placeLocked (splitVideos v).1 v.length).1
          (pyShuffle (mtInit (seedValue s p)) (splitVideos v).2)).2 = true
      · have hshort := (fillSlots_warn_iff _ _).mp hf
        omega
      · rw [if_neg hf] at hm
        exact absurd hm (List.not_mem_nil _)
  · exact c6_concrete_scenario

/-- Witness for C6 at the concrete corrupted 3-card list: the output is
shorter than the input and the corrupted locked card is gone. -/
theorem C6_graceful_degradation_witness :
    (("p1" : String) ≠ "" ∧ ("p1" : String) ≠ "preview" ∧
      unlockedOf [Card.mk 0 0 false, Card.mk 1 1 false, Card.mk 2 10 true] ≠ [] ∧
      Card.mk 2 10 true ∈ [Card.mk 0 0 false, Card.mk 1 1 false, Card.mk 2 10 true] ∧
      (Card.mk 2 10 true).is_locked = true ∧
      [Card.mk 0 0 false, Card.mk 1 1 false, Card.mk 2 10 true].length ≤
        (Card.mk 2 10 true).position) ∧
    ((randomize_videos_with_locks 0 [Card.mk 0 0 false, Card.mk 1 1 false, Card.mk 2 10 true]
        ("p1") 42).1.length <
        [Card.mk 0 0 false, Card.mk 1 1 false, Card.mk 2 10 true].length ∧
      Card.mk 2 10 true ∉ (randomize_videos_with_locks 0
        [Card.mk 0 0 false, Card.mk 1 1 false, Card.mk 2 10 true] ("p1") 42).1) := by
  refine ⟨⟨by decide, by decide, by decide, by decide, by decide, by decide⟩, ?_⟩
  exact (C6_graceful_degradation 0 [Card.mk 0 0 false, Card.mk 1 1 false, Card.mk 2 10 true]
    ("p1") 42 (by decide) (by decide) (by decide)).1 (Card.mk 2 10 true)
    (by decide) (by decide) (by decide)

/-- Counterexample to C10 as stated: with an unlocked card and two locked
cards both at position 1, the composer keeps only the later locked card and
drops the earlier one, but it is not silent: the slot filling runs out of
unlocked cards at the orphaned slot and emits a warning, so the warning
list is not empty. -/
theorem C10_duplicate_locked_cex :
    (Card.mk 1 1 true ∈ [Card.mk 0 0 false, Card.mk 1 1 true, Card.mk 2 1 true] ∧
      Card.mk 2 1 true ∈ [Card.mk 0 0 false, Card.mk 1 1 true, Card.mk 2 1 true] ∧
      (Card.mk 1 1 true).is_locked = true ∧ (Card.mk 2 1 true).is_locked = true ∧
      (Card.mk 1 1 true).position = (Card.mk 2 1 true).position ∧
      Card.mk 1 1 true ≠ Card.mk 2 1 true) ∧
    ¬ ((randomize_videos_with_locks 0 [Card.mk 0 0 false, Card.mk 1 1 true, Card.mk 2 1 true]
        ("x") 7).2 = []) := by
  refine ⟨⟨by decide, by decide, by decide, by decide, by decide, by decide⟩, ?_⟩
  decide

theorem mem_of_getElem_some {α : Type} (l : List α) (i : Nat) (a : α)
    (h : l[i]? = some a) : a ∈ l := by
  obtain ⟨hi, heq⟩ := List.getElem?_eq_some.mp h
  rw [← heq]
  exact List.getElem_mem hi

/-- C10 amended: in the randomizing path, when several locked cards share
one position, the dictionary keyed by position keeps only the last such
card in input order: for a shared in-range position, the last locked card
with that position appears in the output, an earlier distinct locked card
with the same position is dropped from the output, and the drop is not
silent: the slot filling runs out of unlocked cards and emits the
not-enough-unlocked warning. -/
theorem C10_duplicate_locked (g : Nat) (v1 v2 : List Card) (p : String) (s : Int)
    (c1 c2 : Card)
    (hp1 : p ≠ "") (hp2 : p ≠ "preview")
    (hul : unlockedOf (v1 ++ c2 :: v2) ≠ [])
    (hc1 : c1 ∈ v1) (hl1 : c1.is_locked = true) (hl2 : c2.is_locked = true)
    (hpos : c1.position = c2.position)
    (hlast : ∀ b ∈ v2, b.is_locked = true → b.position ≠ c2.position)
    (hne : c1 ≠ c2)
    (hrange : c2.position < (v1 ++ c2 :: v2).length) :
    c2 ∈ (randomize_videos_with_locks g (v1 ++ c2 :: v2) p s).1 ∧
    c1 ∉ (randomize_videos_with_locks g (v1 ++ c2 :: v2) p s).1 ∧
    FeedWarning.notEnoughUnlocked ∈ (randomize_videos_with_locks g (v1 ++ c2 :: v2) p s).2 := by
  have hul' : ¬ (splitVideos (v1 ++ c2 :: v2)).2 = [] := by
    rw [splitVideos_snd]
    exact hul
  have hnodup_keys := splitVideos_nodup (v1 ++ c2 :: v2)
  have hdictmem : (c2.position, c2) ∈ (splitVideos (v1 ++ c2 :: v2)).1 := by
    unfold splitVideos
    rw [List.foldl_append]
    simp only [List.foldl_cons, splitStep, if_pos hl2]
    exact split_foldl_key_preserved v2 _ _ c2.position c2
      (dictUpsert_mem_self _ c2.position c2) hlast
  have hcount : countNone (placeLocked (splitVideos (v1 ++ c2 :: v2)).1
      (v1 ++ c2 :: v2).length).1 +
      countInRange (v1 ++ c2 :: v2).length (splitVideos (v1 ++ c2 :: v2)).1 =
      (v1 ++ c2 :: v2).length := by
    unfold placeLocked
    have h := place_foldl_countNone (splitVideos (v1 ++ c2 :: v2)).1
      (v1 ++ c2 :: v2).length (List.replicate (v1 ++ c2 :: v2).length none) [] hnodup_keys
      (fun pc _ h => replicate_none_getElem (v1 ++ c2 :: v2).length pc.1 h)
    rw [countNone_replicate] at h
    exact h
  have hc1v : c1 ∈ v1 ++ c2 :: v2 := List.mem_append_left _ hc1
  have hc2v : c2 ∈ v1 ++ c2 :: v2 :=
    List.mem_append_right _ (List.mem_cons_self c2 v2)
  have hc1l : c1 ∈ lockedOf (v1 ++ c2 :: v2) := List.mem_filter.mpr ⟨hc1v, hl1⟩
  have hc2l : c2 ∈ lockedOf (v1 ++ c2 :: v2) := List.mem_filter.mpr ⟨hc2v, hl2⟩
  have hposdup : ¬ ((lockedOf (v1 ++ c2 :: v2)).map Card.position).Nodup := by
    intro hnd
    exact hne (List.inj_on_of_nodup_map hnd hc1l hc2l hpos)
  have hdlt : (splitVideos (v1 ++ c2 :: v2)).1.length <
      (lockedOf (v1 ++ c2 :: v2)).length := by
    have hkeysub : ((splitVideos (v1 ++ c2 :: v2)).1.map Prod.fst).toFinset ⊆
        ((lockedOf (v1 ++ c2 :: v2)).map Card.position).toFinset := by
      intro k hk
      rw [List.mem_toFinset] at hk ⊢
      obtain ⟨pc, hpc, heq⟩ := List.mem_map.mp hk
      obtain ⟨hpck, hpcv⟩ := splitVideos_entry (v1 ++ c2 :: v2) pc hpc
      rw [← heq, hpck]
      exact List.mem_map_of_mem Card.position hpcv
    have h1 : (splitVideos (v1 ++ c2 :: v2)).1.length =
        ((splitVideos (v1 ++ c2 :: v2)).1.map Prod.fst).toFinset.card := by
      rw [List.toFinset_card_of_nodup hnodup_keys, List.length_map]
    have h2 := Finset.card_le_card hkeysub
    have h3 : ((lockedOf (v1 ++ c2 :: v2)).map Card.position).toFinset.card =
        ((lockedOf (v1 ++ c2 :: v2)).map Card.position).dedup.length :=
      List.card_toFinset _
    have h4 : ((lockedOf (v1 ++ c2 :: v2)).map Card.position).dedup.length <
        ((lockedOf (v1 ++ c2 :: v2)).map Card.position).length := by
      have hsl := List.dedup_sublist ((lockedOf (v1 ++ c2 :: v2)).map Card.position)
      have hle := hsl.length_le
      rcases Nat.lt_or_ge ((lockedOf (v1 ++ c2 :: v2)).map Card.position).dedup.length
        ((lockedOf (v1 ++ c2 :: v2)).map Card.position).length with hlt | hge
      · exact hlt
      · exfalso
        have heq := List.Sublist.eq_of_length hsl (by omega)
        exact hposdup (heq ▸ List.nodup_dedup _)
    rw [List.length_map] at h4
    omega
  have hKlen := countInRange_le_length (v1 ++ c2 :: v2).length
    (splitVideos (v1 ++ c2 :: v2)).1
  have hLU := length_locked_add_unlocked (v1 ++ c2 :: v2)
  have hshuf_len : (pyShuffle (mtInit (seedValue s p))
      (splitVideos (v1 ++ c2 :: v2)).2).length = (unlockedOf (v1 ++ c2 :: v2)).length := by
    rw [(pyShuffle_perm _ _).length_eq, splitVideos_snd]
  have hshort : (pyShuffle (mtInit (seedValue s p))
      (splitVideos (v1 ++ c2 :: v2)).2).length <
      countNone (placeLocked (splitVideos (v1 ++ c2 :: v2)).1 (v1 ++ c2 :: v2).length).1 := by
    omega
  have hf : (fillSlots (placeLocked (splitVideos (v1 ++ c2 :: v2)).1
      (v1 ++ c2 :: v2).length).1 (pyShuffle (mtInit (seedValue s p))
        (splitVideos (v1 ++ c2 :: v2)).2)).2 = true :=
    (fillSlots_warn_iff _ _).mpr hshort
  refine ⟨?_, ?_, ?_⟩
  · rw [randomize_of_randomizing g (v1 ++ c2 :: v2) p s hp1 hp2 hul']
    have hhit : ((placeLocked (splitVideos (v1 ++ c2 :: v2)).1
        (v1 ++ c2 :: v2).length).1)[c2.position]? = some (some c2) := by
      unfold placeLocked
      exact place_foldl_hit (splitVideos (v1 ++ c2 :: v2)).1 (v1 ++ c2 :: v2).length
        (List.replicate (v1 ++ c2 :: v2).length none) [] c2.position c2 hnodup_keys
        hdictmem hrange (List.length_replicate _ none)
    have hfill := fillSlots_getElem _ (pyShuffle (mtInit (seedValue s p))
      (splitVideos (v1 ++ c2 :: v2)).2) c2.position c2 hhit
    have hmem : (some c2) ∈ (fillSlots (placeLocked (splitVideos (v1 ++ c2 :: v2)).1
        (v1 ++ c2 :: v2).length).1 (pyShuffle (mtInit (seedValue s p))
          (splitVideos (v1 ++ c2 :: v2)).2)).1 := mem_of_getElem_some _ c2.position _ hfill
    exact List.mem_filterMap.mpr ⟨some c2, hmem, rfl⟩
  · intro hmem
    rcases output_mem_cases g (v1 ++ c2 :: v2) p s hp1 hp2 hul' c1 hmem with hin | hin
    · obtain ⟨qc, hqc, hlt, hval⟩ :=
        mem_inRangeValues (v1 ++ c2 :: v2).length (splitVideos (v1 ++ c2 :: v2)).1 c1 hin
      have hqk := (splitVideos_entry (v1 ++ c2 :: v2) qc hqc).1
      have hqpair : qc = (c2.position, c1) := by
        have : qc.1 = c2.position := by rw [hqk, hval, hpos]
        exact Prod.ext this hval
      rw [hqpair] at hqc
      exact hne (nodup_fst_eq _ hnodup_keys c2.position c1 c2 hqc hdictmem)
    · have := mem_unlockedOf_not_locked (v1 ++ c2 :: v2) c1 hin
      rw [hl1] at this
      exact Bool.noConfusion this
  · rw [randomize_of_randomizing g (v1 ++ c2 :: v2) p s hp1 hp2 hul']
    refine List.mem_append_right _ ?_
    rw [if_pos hf]
    exact List.mem_singleton.mpr rfl

/-- Witness for C10 at the concrete three-card list with two locked cards
sharing position 1. -/
theorem C10_duplicate_locked_witness :
    (("x" : String) ≠ "" ∧ ("x" : String) ≠ "preview" ∧
      unlockedOf [Card.mk 0 0 false, Card.mk 1 1 true, Card.mk 2 1 true] ≠ [] ∧
      Card.mk 1 1 true ∈ [Card.mk 0 0 false, Card.mk 1 1 true] ∧
      (Card.mk 1 1 true).position = (Card.mk 2 1 true).position ∧
      Card.mk 1 1 true ≠ Card.mk 2 1 true ∧
      (Card.mk 2 1 true).position <
        [Card.mk 0 0 false, Card.mk 1 1 true, Card.mk 2 1 true].length) ∧
    (Card.mk 2 1 true ∈ (randomize_videos_with_locks 0
        [Card.mk 0 0 false, Card.mk 1 1 true, Card.mk 2 1 true] ("x") 7).1 ∧
      Card.mk 1 1 true ∉ (randomize_videos_with_locks 0
        [Card.mk 0 0 false, Card.mk 1 1 true, Card.mk 2 1 true] ("x") 7).1 ∧
      FeedWarning.notEnoughUnlocked ∈ (randomize_videos_with_locks 0
        [Card.mk 0 0 false, Card.mk 1 1 true, Card.mk 2 1 true] ("x") 7).2) := by
  refine ⟨⟨by decide, by decide, by decide, by decide, by decide, by decide, by decide⟩, ?_⟩
  have h := C10_duplicate_locked 0 [Card.mk 0 0 false, Card.mk 1 1 true] [] ("x") 7
    (Card.mk 1 1 true) (Card.mk 2 1 true) (by decide) (by decide) (by decide) (by decide)
    (by decide) (by decide) (by decide) (by decide) (by decide) (by decide)
  have happ : ([Card.mk 0 0 false, Card.mk 1 1 true] ++
      Card.mk 2 1 true :: ([] : List Card)) =
      [Card.mk 0 0 false, Card.mk 1 1 true, Card.mk 2 1 true] := rfl
  rw [happ] at h
  exact h
